import Mathlib

/-!
Verification of the process-scheduling simulator.

This file gives a shallow embedding of the simulator's core:
the Process entity (src/src/simulation/algorithms/scheduler.interface.ts,
file process.model.ts), the shared BaseScheduler machinery
(src/src/simulation/algorithms/base-scheduler.ts), the seven policy
implementations (fcfs.ts, sjf.ts, random.ts, priority.ts, priority_p.ts,
round_robin.ts, srtf.ts), the scheduler factory, and the statistics
derivation of the batch controller (scheduler.controller.ts) and of the
streaming service (socket.service.ts).

Modelling conventions:
- Mutable Process objects are shared by aliasing between the readyQueue,
  the running slot, the completed list and the full process array.  The
  embedding therefore keeps one authoritative store (a function from a
  process index, called pid below, to its record) and lets the queue, the
  slot, the completed list and the process-array order hold pids.
- Times, burst times and waiting times are JavaScript numbers that the
  code only ever drives through non-negative integer values on the input
  domain documented by the spec (arrivalTime and burstTime are integers
  greater or equal 0); they are embedded as Nat.  Priorities can be any
  integer and turnaroundTime is a JavaScript subtraction, so both are Int.
  The Round Robin time-slice counter can transiently pass through a
  negative value in JavaScript only in branches where just its sign is
  observed, and it is embedded as Int to keep even that faithful.
- A null object reference becomes Option, an array becomes List.
- The nondeterministic selection of the Random policy is embedded with an
  explicit oracle: a list of natural numbers, each draw taking the head
  modulo the queue length, so theorems quantified over all oracles cover
  every possible sequence of selections.
- The ghost field consumed accumulates, across all execute calls of a
  run, the amount by which execute decremented remainingTime; it stands
  for the CPU time actually consumed and is touched by no other code.
-/

namespace SchedSim

/-- Process states, from the ProcessState enum of process.model.ts. -/
inductive PState where
  | NEW
  | READY
  | RUNNING
  | WAITING
  | TERMINATED
deriving DecidableEq, Repr

open PState

/-- One simulated process, from the Process class of process.model.ts.
The id and name fields are display-only and are replaced by the pid
indexing of the store. -/
structure Proc where
  arrivalTime : Nat
  burstTime : Nat
  priority : Int
  state : PState
  remainingTime : Nat
  waitingTime : Nat
  turnaroundTime : Int
  responseTime : Option Nat
  completionTime : Option Nat
  firstRun : Bool
  runningTimestamps : List Nat
deriving DecidableEq, Repr

/-- Input spec of a process, from the ProcessConfig interface:
arrivalTime, burstTime and (defaulted) priority. -/
structure PConfig where
  arrivalTime : Nat
  burstTime : Nat
  priority : Int
deriving DecidableEq, Repr

/-- Statistics tuple returned by Process.complete. -/
structure ProcStats where
  waitingTime : Nat
  turnaroundTime : Int
  responseTime : Nat
  completionTime : Nat
deriving DecidableEq, Repr

/-- Constructor of the Process class: NEW state, remainingTime equal to
burstTime, waitingTime 0, no statistics set, firstRun true, empty
runningTimestamps log. -/
def Proc.mk0 (c : PConfig) : Proc where
  arrivalTime := c.arrivalTime
  burstTime := c.burstTime
  priority := c.priority
  state := NEW
  remainingTime := c.burstTime
  waitingTime := 0
  turnaroundTime := 0
  responseTime := none
  completionTime := none
  firstRun := true
  runningTimestamps := []

/-- Process.updateState: if the process enters RUNNING from a non-RUNNING
state and a timestamp was supplied, the timestamp is appended to
runningTimestamps; the state is updated unconditionally. -/
def Proc.updateState (p : Proc) (ns : PState) (currentTime : Option Nat) : Proc :=
  let p :=
    match currentTime with
    | some t =>
        if ns = RUNNING ∧ p.state ≠ RUNNING then
          { p with runningTimestamps := p.runningTimestamps ++ [t] }
        else p
    | none => p
  { p with state := ns }

/-- Process.execute: only acts when RUNNING; on the very first run records
responseTime from the accumulated waitingTime; decrements remainingTime by
min timeQuantum remainingTime; when remainingTime reaches 0 the state
becomes TERMINATED and true is reported. -/
def Proc.execute (p : Proc) (timeQuantum : Nat := 1) : Proc × Bool :=
  if p.state = RUNNING then
    let p :=
      if p.firstRun then
        { p with responseTime := some p.waitingTime, firstRun := false }
      else p
    let executionTime := min timeQuantum p.remainingTime
    let p := { p with remainingTime := p.remainingTime - executionTime }
    if p.remainingTime = 0 then ({ p with state := TERMINATED }, true)
    else (p, false)
  else (p, false)

/-- Process.updateWaitingTime: adds the given units only while READY or
WAITING. -/
def Proc.updateWaitingTime (p : Proc) (t : Nat) : Proc :=
  if p.state = READY ∨ p.state = WAITING then
    { p with waitingTime := p.waitingTime + t }
  else p

/-- Process.complete: unconditionally sets TERMINATED, completionTime to
the given time and turnaroundTime to that time minus arrivalTime, and
returns the statistics tuple (responseTime defaulting to 0 when null). -/
def Proc.complete (p : Proc) (currentTime : Nat) : Proc × ProcStats :=
  let p := { p with
    state := TERMINATED
    completionTime := some currentTime
    turnaroundTime := (currentTime : Int) - (p.arrivalTime : Int) }
  (p, { waitingTime := p.waitingTime
        turnaroundTime := p.turnaroundTime
        responseTime := p.responseTime.getD 0
        completionTime := currentTime })

end SchedSim

namespace SchedSim

open PState

/-- State of one scheduler run, from BaseScheduler: the full process set
(as a pid order plus the authoritative store), the READY queue, the at
most one running process, the completed list and the clock; quantum and
slice belong to RoundRobinScheduler, oracle feeds the Random policy and
consumed is the ghost accumulator for executed CPU time. -/
structure Sched where
  n : Nat
  store : Nat → Proc
  order : List Nat
  queue : List Nat
  slot : Option Nat
  completed : List Nat
  time : Nat
  quantum : Nat
  slice : Int
  oracle : List Nat
  consumed : Nat

/-- Write one process record back into the store. -/
def Sched.setP (s : Sched) (pid : Nat) (p : Proc) : Sched :=
  { s with store := Function.update s.store pid p }

/-- One iteration of the loop of BaseScheduler.checkArrivals: a NEW
process whose arrivalTime is at most the clock becomes READY and is
pushed onto the ready queue. -/
def arrivalStep (s : Sched) (pid : Nat) : Sched :=
  if (s.store pid).state = NEW ∧ (s.store pid).arrivalTime ≤ s.time then
    let s := s.setP pid ((s.store pid).updateState READY none)
    { s with queue := s.queue ++ [pid] }
  else s

/-- BaseScheduler.checkArrivals: the loop over this.processes. -/
def checkArrivals (s : Sched) : Sched :=
  s.order.foldl arrivalStep s

/-- One iteration of BaseScheduler.updateWaitingTimes. -/
def waitStep (s : Sched) (pid : Nat) : Sched :=
  s.setP pid ((s.store pid).updateWaitingTime 1)

/-- BaseScheduler.updateWaitingTimes: accrue one unit on every ready
queue member. -/
def updateWaitingTimes (s : Sched) : Sched :=
  s.queue.foldl waitStep s

/-- Stable insertion of a pid into a sorted pid list, the building block
of the embedding of the stable Array.prototype.sort. -/
def ordIns (le : Nat → Nat → Bool) (a : Nat) : List Nat → List Nat
  | [] => [a]
  | b :: l => if le a b then a :: b :: l else b :: ordIns le a l

/-- Stable sort of a pid list, the embedding of the guaranteed-stable
Array.prototype.sort with a comparator. -/
def insSort (le : Nat → Nat → Bool) : List Nat → List Nat
  | [] => []
  | a :: l => ordIns le a (insSort le l)

/-- Lexicographic order on a primary and a tie-break key, the shape of
every sortReadyQueue comparator in the source. -/
def lexLe (x y : Int × Int) : Bool :=
  decide (x.1 < y.1 ∨ (x.1 = y.1 ∧ x.2 ≤ y.2))

/-- Sort key of SRTFScheduler.sortReadyQueue and the second
SJFScheduler.sortReadyQueue: remainingTime, then arrivalTime. -/
def keyRem (st : Nat → Proc) (a : Nat) : Int × Int :=
  (((st a).remainingTime : Int), ((st a).arrivalTime : Int))

/-- Sort key of PriorityScheduler.sortReadyQueue and
PriorityPreemptiveScheduler.sortReadyQueue: priority, then arrivalTime. -/
def keyPri (st : Nat → Proc) (a : Nat) : Int × Int :=
  ((st a).priority, ((st a).arrivalTime : Int))

/-- Comparator of the FCFS constructor sort: arrivalTime ascending. -/
def leArr (st : Nat → Proc) (a b : Nat) : Bool :=
  decide ((st a).arrivalTime ≤ (st b).arrivalTime)

/-- Selection procedure of one policy: from the queue, the store and the
oracle, produce the chosen pid, the remaining queue and the remaining
oracle, or nothing when the queue is empty. -/
def PickFn : Type :=
  List Nat → (Nat → Proc) → List Nat → Option (Nat × List Nat × List Nat)

/-- Plain this.readyQueue.shift of FCFSScheduler and
RoundRobinScheduler. -/
def pickHead : PickFn := fun q _ o =>
  match q with
  | [] => none
  | h :: t => some (h, t, o)

/-- Selection by sortReadyQueue followed by shift, used by SJF, SRTF,
Priority and Priority-Preemptive with their respective keys. -/
def pickSort (key : (Nat → Proc) → Nat → Int × Int) : PickFn := fun q st o =>
  match insSort (fun a b => lexLe (key st a) (key st b)) q with
  | [] => none
  | h :: t => some (h, t, o)

/-- RandomScheduler.selectRandomProcess: splice out the element at a
uniformly drawn index, the draw being supplied by the oracle. -/
def pickRand : PickFn := fun q _ o =>
  match q with
  | [] => none
  | _ :: _ =>
      let i := o.headD 0 % q.length
      some (q.getD i 0, q.eraseIdx i, o.tail)

/-- Dispatch behavior of one policy: how to select, whether the dispatch
passes the clock to updateState (only the live SJF does), and whether it
resets the Round Robin time slice. -/
structure DispatchCfg where
  pick : PickFn
  withTime : Bool
  setSlice : Bool

/-- Take a process out of the ready queue per the policy's selection,
put it in the running slot, mark it RUNNING, and reset the time slice
when the policy is Round Robin. -/
def applyDispatch (cfg : DispatchCfg) (s : Sched) : Sched :=
  match cfg.pick s.queue s.store s.oracle with
  | none => s
  | some (pid, q', o') =>
      let s := { s with queue := q', oracle := o', slot := some pid }
      let s := s.setP pid
        ((s.store pid).updateState RUNNING (if cfg.withTime then some s.time else none))
      if cfg.setSlice then { s with slice := (s.quantum : Int) } else s

/-- Dispatch only when the running slot is free, the guard of every
policy's dispatch site. -/
def tryDispatch (cfg : DispatchCfg) (s : Sched) : Sched :=
  if s.slot = none then applyDispatch cfg s else s

/-- Advance the running process by one execute call, accounting the
consumed CPU time. -/
def execAdvance (pid : Nat) (s : Sched) : Sched :=
  { s.setP pid ((s.store pid).execute 1).1 with
    consumed := s.consumed +
      ((s.store pid).remainingTime - ((s.store pid).execute 1).1.remainingTime) }

/-- Completion handling: call complete on the finished process, append
it to the completed list, clear the slot, and redispatch when the
policy does so in the same tick (SRTF and Priority-Preemptive pass none
and do not). -/
def execFinish (redis : Option DispatchCfg) (pid : Nat) (s : Sched) : Sched :=
  let s := s.setP pid ((s.store pid).complete s.time).1
  let s := { s with completed := s.completed ++ [pid], slot := none }
  match redis with
  | some cfg => tryDispatch cfg s
  | none => s

/-- Execute the running process for one time unit, with the shared
completion handling. -/
def execStep (redis : Option DispatchCfg) (s : Sched) : Sched :=
  match s.slot with
  | none => s
  | some pid =>
      if ((s.store pid).execute 1).2 then execFinish redis pid (execAdvance pid s)
      else execAdvance pid s

/-- Dispatch behavior of FCFSScheduler. -/
def fcfsCfg : DispatchCfg := ⟨pickHead, false, false⟩

/-- Dispatch behavior of the live SJFScheduler: sorted selection and a
timestamp passed to updateState. -/
def sjfCfg : DispatchCfg := ⟨pickSort keyRem, true, false⟩

/-- Dispatch behavior of SRTFScheduler. -/
def srtfCfg : DispatchCfg := ⟨pickSort keyRem, false, false⟩

/-- Dispatch behavior of PriorityScheduler. -/
def priCfg : DispatchCfg := ⟨pickSort keyPri, false, false⟩

/-- Dispatch behavior of PriorityPreemptiveScheduler. -/
def ppCfg : DispatchCfg := ⟨pickSort keyPri, false, false⟩

/-- Dispatch behavior of RandomScheduler. -/
def randCfg : DispatchCfg := ⟨pickRand, false, false⟩

/-- Dispatch behavior of RoundRobinScheduler: plain shift plus a time
slice reset. -/
def rrCfg : DispatchCfg := ⟨pickHead, false, true⟩

/-- Shared tick shape of the four policies whose tick is arrivals,
dispatch-if-free, wait accrual, execute with same-tick redispatch on
completion: FCFS, SJF, Priority and Random. -/
def simpleTick (cfg : DispatchCfg) (s : Sched) : Sched :=
  let s := { s with time := s.time + 1 }
  let s := checkArrivals s
  let s := tryDispatch cfg s
  let s := updateWaitingTimes s
  execStep (some cfg) s

/-- SRTFScheduler.hasShorterRemainingTimeProcess: the reduce over the
ready queue that finds the minimum of (remainingTime, arrivalTime), then
the strict comparison against the running process. -/
def srtfBest (st : Nat → Proc) (q : List Nat) : Option Nat :=
  match q with
  | [] => none
  | q0 :: _ =>
      some (q.foldl (fun best cur =>
        if (st cur).remainingTime < (st best).remainingTime then cur
        else if (st cur).remainingTime = (st best).remainingTime ∧
                (st cur).arrivalTime < (st best).arrivalTime then cur
        else best) q0)

/-- Whether SRTF preempts: some ready process has strictly smaller
remainingTime than the running one. -/
def hasShorterRemainingTimeProcess (s : Sched) : Bool :=
  match s.slot with
  | none => false
  | some c =>
      match srtfBest s.store s.queue with
      | none => false
      | some m => decide ((s.store m).remainingTime < (s.store c).remainingTime)

/-- PriorityPreemptiveScheduler.hasHigherPriorityProcess: the reduce that
finds the minimum of (priority, arrivalTime), then the strict comparison
against the running process. -/
def ppBest (st : Nat → Proc) (q : List Nat) : Option Nat :=
  match q with
  | [] => none
  | q0 :: _ =>
      some (q.foldl (fun best cur =>
        if (st cur).priority < (st best).priority then cur
        else if (st cur).priority = (st best).priority ∧
                (st cur).arrivalTime < (st best).arrivalTime then cur
        else best) q0)

/-- Whether Priority-Preemptive preempts: some ready process has strictly
lower priority value than the running one. -/
def hasHigherPriorityProcess (s : Sched) : Bool :=
  match s.slot with
  | none => false
  | some c =>
      match ppBest s.store s.queue with
      | none => false
      | some m => decide ((s.store m).priority < (s.store c).priority)

/-- Move the running process back to READY at the back of the ready
queue and clear the slot, the preemption action of SRTF and of
Priority-Preemptive. -/
def preemptCurrent (s : Sched) : Sched :=
  match s.slot with
  | none => s
  | some pid =>
      let s := s.setP pid ((s.store pid).updateState READY none)
      { s with queue := s.queue ++ [pid], slot := none }

/-- SRTFScheduler.tick. -/
def srtfTick (s : Sched) : Sched :=
  let s := { s with time := s.time + 1 }
  let s := checkArrivals s
  let s := if hasShorterRemainingTimeProcess s then preemptCurrent s else s
  let s := tryDispatch srtfCfg s
  let s := updateWaitingTimes s
  execStep none s

/-- PriorityPreemptiveScheduler.tick. -/
def ppTick (s : Sched) : Sched :=
  let s := { s with time := s.time + 1 }
  let s := checkArrivals s
  let s := if hasHigherPriorityProcess s then preemptCurrent s else s
  let s := tryDispatch ppCfg s
  let s := updateWaitingTimes s
  execStep none s

/-- Quantum-expiry handling of RoundRobinScheduler.tick: set the
process back to READY, then either move it to the back of the queue and
dispatch the next process when a contender waits, or refresh the slice
when none does. -/
def rrExpiry (pid : Nat) (s : Sched) : Sched :=
  if s.queue.length > 0 then
    tryDispatch rrCfg
      { s.setP pid ((s.store pid).updateState READY none) with
        queue := s.queue ++ [pid], slot := none }
  else { s.setP pid ((s.store pid).updateState READY none) with slice := (s.quantum : Int) }

/-- Countdown-and-execute phase of RoundRobinScheduler.tick: decrement
the slice, execute, and take the completion branch, the quantum-expiry
branch or no branch. -/
def rrExecPhase (s : Sched) : Sched :=
  match s.slot with
  | none => s
  | some pid =>
      let s := { s with slice := s.slice - 1 }
      if ((s.store pid).execute 1).2 then execFinish (some rrCfg) pid (execAdvance pid s)
      else if s.slice ≤ 0 then rrExpiry pid (execAdvance pid s)
      else execAdvance pid s

/-- RoundRobinScheduler.tick, including the quantum countdown, the
same-tick redispatch on completion, and the quantum-expiry branch. -/
def rrTick (s : Sched) : Sched :=
  let s := { s with time := s.time + 1 }
  let s := checkArrivals s
  let s := tryDispatch rrCfg s
  let s := updateWaitingTimes s
  rrExecPhase s

/-- Policy identifiers, from the SchedulerType enum. -/
inductive Policy where
  | FCFS
  | SJF
  | SRTF
  | RR
  | PRIORITY
  | PRIORITY_P
  | RANDOM
deriving DecidableEq, Repr

/-- One tick of the policy's scheduler. -/
def tick : Policy → Sched → Sched
  | .FCFS => simpleTick fcfsCfg
  | .SJF => simpleTick sjfCfg
  | .SRTF => srtfTick
  | .RR => rrTick
  | .PRIORITY => simpleTick priCfg
  | .PRIORITY_P => ppTick
  | .RANDOM => simpleTick randCfg

/-- Value returned by tick: whether the completed count equals the total
process count. -/
def allDone (s : Sched) : Bool :=
  s.completed.length == s.n

/-- Initial scheduler state: every process freshly constructed in NEW
state; the FCFS constructor pre-sorts the process array by arrivalTime
(stably), the other constructors copy it unchanged. -/
def initSched (p : Policy) (cfgs : List PConfig) (quantum : Nat) (oracle : List Nat) : Sched :=
  let st := fun pid => Proc.mk0 (cfgs.getD pid ⟨0, 0, 0⟩)
  let n := cfgs.length
  { n := n
    store := st
    order := match p with
      | .FCFS => insSort (leArr st) (List.range n)
      | _ => List.range n
    queue := []
    slot := none
    completed := []
    time := 0
    quantum := quantum
    slice := 0
    oracle := oracle
    consumed := 0 }

/-- State after k calls of tick on a freshly constructed scheduler. -/
def runTicks (p : Policy) (cfgs : List PConfig) (quantum : Nat) (oracle : List Nat) : Nat → Sched
  | 0 => initSched p cfgs quantum oracle
  | k + 1 => tick p (runTicks p cfgs quantum oracle k)

/-- BaseScheduler.getAllProcesses: completed, then the running process,
then the ready queue, then the processes still NEW. -/
def getAllProcesses (s : Sched) : List Proc :=
  (s.completed.map s.store) ++ (s.slot.toList.map s.store) ++ (s.queue.map s.store) ++
    ((s.order.filter (fun pid => decide ((s.store pid).state = NEW))).map s.store)

/-- SocketService.calculateContextSwitches: the number of distinct
RUNNING-entry timestamps across all processes, minus one, floored at
zero. -/
def calculateContextSwitches (ps : List Proc) : Nat :=
  let ts := ((ps.map (fun p => p.runningTimestamps)).flatten).dedup
  if ts.length > 0 then ts.length - 1 else 0

end SchedSim

namespace SchedSim

open PState

/-- Canonical identifier of the FCFS policy. -/
def idFCFS : String := "FCFS"

/-- Canonical identifier of the SJF policy. -/
def idSJF : String := "SJF"

/-- Canonical identifier of the SRTF policy. -/
def idSRTF : String := "SRTF"

/-- Canonical identifier of the Round Robin policy. -/
def idRR : String := "RR"

/-- Canonical identifier of the non-preemptive priority policy. -/
def idPRIORITY : String := "PRIORITY"

/-- Canonical identifier of the preemptive priority policy. -/
def idPRIORITY_P : String := "PRIORITY_P"

/-- Canonical identifier of the Random policy. -/
def idRANDOM : String := "RANDOM"

/-- The seven members of the SchedulerType enum. -/
def knownSchedulerTypes : List String :=
  [idFCFS, idSJF, idSRTF, idRR, idPRIORITY, idPRIORITY_P, idRANDOM]

/-- Result of SchedulerFactory.createScheduler: which policy's scheduler
was constructed, its initial state, and whether the unknown-identifier
warning was logged. -/
structure FactoryResult where
  policy : Policy
  sched : Sched
  warned : Bool

/-- SchedulerFactory.createScheduler: the switch over the identifier; RR
takes the quantum from the config through a falsy-default (a missing or
zero timeQuantum becomes 2); an unrecognized identifier falls through to
the default case, which logs a warning and builds an FCFS scheduler. -/
def createScheduler (type : String) (cfgs : List PConfig) (cfgQuantum : Option Nat) :
    FactoryResult :=
  if type = idFCFS then ⟨.FCFS, initSched .FCFS cfgs 2 [], false⟩
  else if type = idSJF then ⟨.SJF, initSched .SJF cfgs 2 [], false⟩
  else if type = idRANDOM then ⟨.RANDOM, initSched .RANDOM cfgs 2 [], false⟩
  else if type = idPRIORITY then ⟨.PRIORITY, initSched .PRIORITY cfgs 2 [], false⟩
  else if type = idPRIORITY_P then ⟨.PRIORITY_P, initSched .PRIORITY_P cfgs 2 [], false⟩
  else if type = idRR then
    let timeQuantum := match cfgQuantum with
      | none => 2
      | some q => if q = 0 then 2 else q
    ⟨.RR, initSched .RR cfgs timeQuantum [], false⟩
  else if type = idSRTF then ⟨.SRTF, initSched .SRTF cfgs 2 [], false⟩
  else ⟨.FCFS, initSched .FCFS cfgs 2 [], true⟩

/-- JavaScript number division restricted to this code's domain: a
division by zero produces NaN, embedded as none. -/
def jsDiv (a b : ℚ) : Option ℚ :=
  if b = 0 then none else some (a / b)

/-- Batch avgWaitingTime of runSimulation in scheduler.controller.ts:
the sum over the result list divided by its length, with no guard
against an empty result. -/
def batchAvgWaitingTime (result : List Proc) : Option ℚ :=
  jsDiv ((result.map (fun p => (p.waitingTime : ℚ))).sum) ((result.length : ℚ))

/-- Batch avgTurnaroundTime of runSimulation in scheduler.controller.ts. -/
def batchAvgTurnaroundTime (result : List Proc) : Option ℚ :=
  jsDiv ((result.map (fun p => (p.turnaroundTime : ℚ))).sum) ((result.length : ℚ))

/-- Batch avgResponseTime of runSimulation in scheduler.controller.ts,
with the null-coalescing p.responseTime or 0. -/
def batchAvgResponseTime (result : List Proc) : Option ℚ :=
  jsDiv ((result.map (fun p => ((p.responseTime.getD 0 : Nat) : ℚ))).sum) ((result.length : ℚ))

/-- Streaming avgWaitingTime of SocketService.emitSimulationState: zero
unless the completed list is non-empty, in which case the arithmetic
mean. -/
def streamAvgWaitingTime (completed : List Proc) : ℚ :=
  if completed.length > 0 then
    ((completed.map (fun p => (p.waitingTime : ℚ))).sum) / (completed.length : ℚ)
  else 0

/-- Streaming avgTurnaroundTime of SocketService.emitSimulationState. -/
def streamAvgTurnaroundTime (completed : List Proc) : ℚ :=
  if completed.length > 0 then
    ((completed.map (fun p => (p.turnaroundTime : ℚ))).sum) / (completed.length : ℚ)
  else 0

/-- Streaming avgResponseTime of SocketService.emitSimulationState. -/
def streamAvgResponseTime (completed : List Proc) : ℚ :=
  if completed.length > 0 then
    ((completed.map (fun p => ((p.responseTime.getD 0 : Nat) : ℚ))).sum) / (completed.length : ℚ)
  else 0

end SchedSim

namespace SchedSim

open PState

/-- Specification of a well-behaved selection procedure: it yields
nothing exactly on an empty queue and otherwise removes one occurrence
of the chosen pid from the queue. -/
def PickOk (pick : PickFn) : Prop :=
  ∀ q st o,
    (pick q st o = none → q = []) ∧
    (∀ pid q' o', pick q st o = some (pid, q', o') → (pid :: q').Perm q)

/-- Concatenation of the three explicit places a pid can occupy: the
ready queue, the running slot and the completed list. -/
def placedL (s : Sched) : List Nat :=
  s.queue ++ s.slot.toList ++ s.completed

/-- The pid sits in exactly one of the four places of the spec's
scheduler-state invariant: not yet arrived (state NEW), the READY queue,
the running slot, or the completed list. -/
def inExactlyOneOf (s : Sched) (pid : Nat) : Prop :=
  ((s.store pid).state = NEW ∧ pid ∉ s.queue ∧ s.slot ≠ some pid ∧ pid ∉ s.completed) ∨
  (pid ∈ s.queue ∧ (s.store pid).state ≠ NEW ∧ s.slot ≠ some pid ∧ pid ∉ s.completed) ∨
  (s.slot = some pid ∧ (s.store pid).state ≠ NEW ∧ pid ∉ s.queue ∧ pid ∉ s.completed) ∨
  (pid ∈ s.completed ∧ (s.store pid).state ≠ NEW ∧ pid ∉ s.queue ∧ s.slot ≠ some pid)

/-- Master invariant of one scheduler run over the original configs:
the process count, the order list ranging over exactly the pids, the
partition of the pids over the four places, completed processes being
TERMINATED with nothing left to run, burst times never mutated,
remaining time bounded by burst time, and the consumed-CPU accounting
equation. -/
def Inv (cfgs : List PConfig) (s : Sched) : Prop :=
  s.n = cfgs.length ∧
  (∀ pid, pid ∈ s.order ↔ pid < s.n) ∧
  (placedL s).Nodup ∧
  (∀ pid ∈ placedL s, pid < s.n) ∧
  (∀ pid ∈ placedL s, (s.store pid).state ≠ NEW) ∧
  (∀ pid, pid < s.n → (s.store pid).state = NEW ∨ pid ∈ placedL s) ∧
  (∀ pid ∈ s.completed,
      (s.store pid).state = TERMINATED ∧ (s.store pid).remainingTime = 0) ∧
  (∀ pid, (s.store pid).burstTime = (cfgs.getD pid ⟨0, 0, 0⟩).burstTime) ∧
  (∀ pid, (s.store pid).remainingTime ≤ (s.store pid).burstTime) ∧
  (s.consumed + ∑ pid in Finset.range s.n, (s.store pid).remainingTime
     = ∑ pid in Finset.range s.n, (s.store pid).burstTime)

/-- Sum of the burst times of the input process set. -/
def sumBursts (cfgs : List PConfig) : Nat :=
  (cfgs.map (fun c => c.burstTime)).sum

/-- The five policies whose completion handler dispatches a successor
within the same tick: FCFS, SJF, Priority, Random and Round Robin. -/
def fiveRedispatchPolicies : List Policy :=
  [.FCFS, .SJF, .PRIORITY, .RANDOM, .RR]

/-- The six policies whose dispatch sites never pass the clock to
updateState: all but SJF. -/
def sixNoTimestampPolicies : List Policy :=
  [.FCFS, .RR, .SRTF, .PRIORITY, .PRIORITY_P, .RANDOM]

/-- A policy identifier outside the SchedulerType enum, used to witness
the factory fallback. -/
def idUnknown : String := "LOTTERY"

/-- No process of the run carries a RUNNING-entry timestamp. -/
def tsEmptyAll (s : Sched) : Prop :=
  ∀ pid, (s.store pid).runningTimestamps = []

end SchedSim


namespace SchedSim

open PState

/-- With no timestamp supplied, updateState only rewrites the state. -/
@[simp] theorem updateState_none (p : Proc) (ns : PState) :
    p.updateState ns none = { p with state := ns } := rfl

/-- With a timestamp supplied, updateState also logs the RUNNING entry
when actually entering RUNNING. -/
theorem updateState_some (p : Proc) (ns : PState) (t : Nat) :
    p.updateState ns (some t) =
      if ns = RUNNING ∧ p.state ≠ RUNNING then
        { p with state := ns, runningTimestamps := p.runningTimestamps ++ [t] }
      else { p with state := ns } := by
  simp only [Proc.updateState]
  split <;> rfl

/-- Process.complete rewrites exactly the terminal fields. -/
@[simp] theorem complete_fst (p : Proc) (t : Nat) :
    (p.complete t).1 =
      { p with state := TERMINATED, completionTime := some t,
               turnaroundTime := (t : Int) - (p.arrivalTime : Int) } := rfl

/-- Wait accrual leaves the state unchanged. -/
@[simp] theorem updateWaitingTime_state (p : Proc) (t : Nat) :
    (p.updateWaitingTime t).state = p.state := by
  unfold Proc.updateWaitingTime; split <;> rfl

/-- Wait accrual leaves the remaining time unchanged. -/
@[simp] theorem updateWaitingTime_rem (p : Proc) (t : Nat) :
    (p.updateWaitingTime t).remainingTime = p.remainingTime := by
  unfold Proc.updateWaitingTime; split <;> rfl

/-- Wait accrual leaves the burst time unchanged. -/
@[simp] theorem updateWaitingTime_burst (p : Proc) (t : Nat) :
    (p.updateWaitingTime t).burstTime = p.burstTime := by
  unfold Proc.updateWaitingTime; split <;> rfl

/-- Wait accrual leaves the timestamp log unchanged. -/
@[simp] theorem updateWaitingTime_ts (p : Proc) (t : Nat) :
    (p.updateWaitingTime t).runningTimestamps = p.runningTimestamps := by
  unfold Proc.updateWaitingTime; split <;> rfl

/-- Wait accrual leaves the arrival time unchanged. -/
@[simp] theorem updateWaitingTime_arrival (p : Proc) (t : Nat) :
    (p.updateWaitingTime t).arrivalTime = p.arrivalTime := by
  unfold Proc.updateWaitingTime; split <;> rfl

/-- Wait accrual leaves the priority unchanged. -/
@[simp] theorem updateWaitingTime_priority (p : Proc) (t : Nat) :
    (p.updateWaitingTime t).priority = p.priority := by
  unfold Proc.updateWaitingTime; split <;> rfl

/-- A process that is not RUNNING is untouched by execute. -/
theorem execute_not_running {p : Proc} (q : Nat) (h : p.state ≠ RUNNING) :
    p.execute q = (p, false) := by
  unfold Proc.execute
  simp [h]

/-- Execution never changes the burst time. -/
@[simp] theorem execute_burst (p : Proc) (q : Nat) :
    (p.execute q).1.burstTime = p.burstTime := by
  simp only [Proc.execute]
  split_ifs <;> simp

/-- Execution never changes the arrival time. -/
@[simp] theorem execute_arrival (p : Proc) (q : Nat) :
    (p.execute q).1.arrivalTime = p.arrivalTime := by
  simp only [Proc.execute]
  split_ifs <;> simp

/-- Execution never changes the priority. -/
@[simp] theorem execute_priority (p : Proc) (q : Nat) :
    (p.execute q).1.priority = p.priority := by
  simp only [Proc.execute]
  split_ifs <;> simp

/-- Execution never changes the timestamp log. -/
@[simp] theorem execute_ts (p : Proc) (q : Nat) :
    (p.execute q).1.runningTimestamps = p.runningTimestamps := by
  simp only [Proc.execute]
  split_ifs <;> simp

/-- Execution never increases the remaining time. -/
theorem execute_rem_le (p : Proc) (q : Nat) :
    (p.execute q).1.remainingTime ≤ p.remainingTime := by
  simp only [Proc.execute]
  split_ifs <;> simp

/-- A reported completion means the process is TERMINATED with nothing
left to run. -/
theorem execute_done {p : Proc} {q : Nat} (h : (p.execute q).2 = true) :
    (p.execute q).1.state = TERMINATED ∧ (p.execute q).1.remainingTime = 0 := by
  simp only [Proc.execute] at h ⊢
  split_ifs at h ⊢ <;> simp_all

/-- When no completion is reported the state is unchanged. -/
theorem execute_not_done {p : Proc} {q : Nat} (h : (p.execute q).2 = false) :
    (p.execute q).1.state = p.state := by
  simp only [Proc.execute] at h ⊢
  split_ifs at h ⊢ <;> simp_all

/-- Execution never produces the NEW state. -/
theorem execute_state_ne_new {p : Proc} (q : Nat) (h : p.state ≠ NEW) :
    (p.execute q).1.state ≠ NEW := by
  cases hd : (p.execute q).2
  · rw [execute_not_done hd]; exact h
  · rw [(execute_done hd).1]; simp

/-- The store after setP at the written pid. -/
@[simp] theorem setP_store_same (s : Sched) (pid : Nat) (p : Proc) :
    (s.setP pid p).store pid = p := by
  simp [Sched.setP]

/-- The store after setP at any other pid. -/
theorem setP_store_ne (s : Sched) {pid a : Nat} (p : Proc) (h : a ≠ pid) :
    (s.setP pid p).store a = s.store a := by
  simp [Sched.setP, Function.update_noteq h]

/-- The setP update touches no queue. -/
@[simp] theorem setP_queue (s : Sched) (pid : Nat) (p : Proc) :
    (s.setP pid p).queue = s.queue := rfl

/-- The setP update touches no slot. -/
@[simp] theorem setP_slot (s : Sched) (pid : Nat) (p : Proc) :
    (s.setP pid p).slot = s.slot := rfl

/-- The setP update touches no completed list. -/
@[simp] theorem setP_completed (s : Sched) (pid : Nat) (p : Proc) :
    (s.setP pid p).completed = s.completed := rfl

/-- The setP update touches no order list. -/
@[simp] theorem setP_order (s : Sched) (pid : Nat) (p : Proc) :
    (s.setP pid p).order = s.order := rfl

/-- The setP update touches no process count. -/
@[simp] theorem setP_n (s : Sched) (pid : Nat) (p : Proc) :
    (s.setP pid p).n = s.n := rfl

/-- The setP update touches no clock. -/
@[simp] theorem setP_time (s : Sched) (pid : Nat) (p : Proc) :
    (s.setP pid p).time = s.time := rfl

/-- The setP update touches no consumed accumulator. -/
@[simp] theorem setP_consumed (s : Sched) (pid : Nat) (p : Proc) :
    (s.setP pid p).consumed = s.consumed := rfl

/-- The setP update touches no oracle. -/
@[simp] theorem setP_oracle (s : Sched) (pid : Nat) (p : Proc) :
    (s.setP pid p).oracle = s.oracle := rfl

/-- The setP update touches no quantum. -/
@[simp] theorem setP_quantum (s : Sched) (pid : Nat) (p : Proc) :
    (s.setP pid p).quantum = s.quantum := rfl

/-- The setP update touches no time slice. -/
@[simp] theorem setP_slice (s : Sched) (pid : Nat) (p : Proc) :
    (s.setP pid p).slice = s.slice := rfl

end SchedSim

namespace SchedSim

open PState

/-- Ordered insertion permutes consing. -/
theorem ordIns_perm (le : Nat → Nat → Bool) (a : Nat) :
    ∀ l : List Nat, (ordIns le a l).Perm (a :: l) := by
  intro l
  induction l with
  | nil => simp [ordIns]
  | cons b t ih =>
      unfold ordIns
      split
      · exact List.Perm.refl _
      · exact ((ih.cons b).trans (List.Perm.swap a b t))

/-- Insertion sort is a permutation of its input. -/
theorem insSort_perm (le : Nat → Nat → Bool) :
    ∀ l : List Nat, (insSort le l).Perm l := by
  intro l
  induction l with
  | nil => simp [insSort]
  | cons a t ih =>
      exact (ordIns_perm le a (insSort le t)).trans (ih.cons a)

/-- Ordered insertion preserves sortedness under a total transitive
comparator. -/
theorem ordIns_pairwise (le : Nat → Nat → Bool)
    (hto : ∀ a b, le a b = true ∨ le b a = true)
    (htr : ∀ a b c, le a b = true → le b c = true → le a c = true)
    (a : Nat) :
    ∀ l : List Nat, List.Pairwise (fun x y => le x y = true) l →
      List.Pairwise (fun x y => le x y = true) (ordIns le a l) := by
  intro l
  induction l with
  | nil => intro _; simp [ordIns]
  | cons b t ih =>
      intro hp
      rw [List.pairwise_cons] at hp
      unfold ordIns
      split
      · rename_i hab
        rw [List.pairwise_cons]
        refine ⟨?_, List.pairwise_cons.mpr hp⟩
        intro x hx
        rcases List.mem_cons.mp hx with hxb | hxt
        · subst hxb; exact hab
        · exact htr a b x hab (hp.1 x hxt)
      · rename_i hab
        rw [List.pairwise_cons]
        constructor
        · intro x hx
          rcases List.mem_cons.mp (((ordIns_perm le a t).mem_iff).mp hx) with hxa | hxt
          · rw [hxa]
            rcases hto a b with h | h
            · exact absurd h hab
            · exact h
          · exact hp.1 x hxt
        · exact ih hp.2

end SchedSim

namespace SchedSim

open PState

/-- Insertion sort sorts under a total transitive comparator. -/
theorem insSort_pairwise (le : Nat → Nat → Bool)
    (hto : ∀ a b, le a b = true ∨ le b a = true)
    (htr : ∀ a b c, le a b = true → le b c = true → le a c = true) :
    ∀ l : List Nat, List.Pairwise (fun x y => le x y = true) (insSort le l) := by
  intro l
  induction l with
  | nil => simp [insSort]
  | cons a t ih => exact ordIns_pairwise le hto htr a (insSort le t) ih

/-- The head of the sorted list is a minimum of the input list. -/
theorem insSort_head_le (le : Nat → Nat → Bool)
    (hto : ∀ a b, le a b = true ∨ le b a = true)
    (htr : ∀ a b c, le a b = true → le b c = true → le a c = true)
    {l h : List Nat} {hd : Nat} (hs : insSort le l = hd :: h) :
    ∀ x ∈ l, le hd x = true := by
  intro x hx
  have hmem : x ∈ hd :: h := by
    rw [← hs]
    exact ((insSort_perm le l).mem_iff).mpr hx
  rcases List.mem_cons.mp hmem with hxh | hxt
  · rw [hxh]
    rcases hto hd hd with h1 | h1 <;> exact h1
  · have hp := insSort_pairwise le hto htr l
    rw [hs, List.pairwise_cons] at hp
    exact hp.1 x hxt

/-- The lexicographic comparator is total. -/
theorem lexLe_total (x y : Int × Int) : lexLe x y = true ∨ lexLe y x = true := by
  simp only [lexLe, decide_eq_true_eq]
  omega

/-- The lexicographic comparator is transitive. -/
theorem lexLe_trans (x y z : Int × Int) (h1 : lexLe x y = true) (h2 : lexLe y z = true) :
    lexLe x z = true := by
  simp only [lexLe, decide_eq_true_eq] at h1 h2 ⊢
  omega

/-- The comparator derived from a sort key is total. -/
theorem keyLe_total (key : (Nat → Proc) → Nat → Int × Int) (st : Nat → Proc) :
    ∀ a b, lexLe (key st a) (key st b) = true ∨ lexLe (key st b) (key st a) = true :=
  fun a b => lexLe_total (key st a) (key st b)

/-- The comparator derived from a sort key is transitive. -/
theorem keyLe_trans (key : (Nat → Proc) → Nat → Int × Int) (st : Nat → Proc) :
    ∀ a b c, lexLe (key st a) (key st b) = true → lexLe (key st b) (key st c) = true →
      lexLe (key st a) (key st c) = true :=
  fun a b c => lexLe_trans (key st a) (key st b) (key st c)

/-- Removing the element at a valid index and consing it back permutes
the list. -/
theorem getD_cons_eraseIdx_perm :
    ∀ (l : List Nat) (i : Nat), i < l.length →
      (l.getD i 0 :: l.eraseIdx i).Perm l := by
  intro l
  induction l with
  | nil => intro i hi; simp at hi
  | cons h t ih =>
      intro i hi
      cases i with
      | zero => simp [List.eraseIdx]
      | succ j =>
          have hj : j < t.length := by simpa using hi
          simp only [List.getD_cons_succ, List.eraseIdx_cons_succ]
          have hsw : (t.getD j 0 :: h :: t.eraseIdx j).Perm (h :: t.getD j 0 :: t.eraseIdx j) :=
            List.Perm.swap h (t.getD j 0) (t.eraseIdx j)
          exact hsw.trans ((ih j hj).cons h)

/-- The plain shift selection is well behaved. -/
theorem pickHead_ok : PickOk pickHead := by
  intro q st o
  constructor
  · intro h
    cases q with
    | nil => rfl
    | cons a t => simp [pickHead] at h
  · intro pid q' o' h
    cases q with
    | nil => simp [pickHead] at h
    | cons a t =>
        simp [pickHead] at h
        obtain ⟨h1, h2, h3⟩ := h
        rw [h1, h2]

/-- The sorted selection is well behaved. -/
theorem pickSort_ok (key : (Nat → Proc) → Nat → Int × Int) : PickOk (pickSort key) := by
  intro q st o
  constructor
  · intro h
    unfold pickSort at h
    rcases hs : insSort (fun a b => lexLe (key st a) (key st b)) q with _ | ⟨hd, t⟩
    · have := (insSort_perm (fun a b => lexLe (key st a) (key st b)) q).length_eq
      rw [hs] at this
      simpa using (List.length_eq_zero.mp this.symm)
    · rw [hs] at h; simp at h
  · intro pid q' o' h
    unfold pickSort at h
    rcases hs : insSort (fun a b => lexLe (key st a) (key st b)) q with _ | ⟨hd, t⟩
    · rw [hs] at h; simp at h
    · rw [hs] at h
      simp at h
      obtain ⟨h1, h2, h3⟩ := h
      rw [← h1, ← h2, ← hs]
      exact insSort_perm _ q

/-- The random splice selection is well behaved. -/
theorem pickRand_ok : PickOk pickRand := by
  intro q st o
  constructor
  · intro h
    cases q with
    | nil => rfl
    | cons a t => simp [pickRand] at h
  · intro pid q' o' h
    cases q with
    | nil => simp [pickRand] at h
    | cons a t =>
        simp only [pickRand, Option.some.injEq, Prod.mk.injEq] at h
        obtain ⟨h1, h2, h3⟩ := h
        rw [← h1, ← h2]
        exact getD_cons_eraseIdx_perm (a :: t) (o.headD 0 % (a :: t).length)
          (Nat.mod_lt _ (by simp))

end SchedSim

namespace SchedSim

open PState

/-- The placedL abbreviation unfolded. -/
theorem placedL_def (s : Sched) : placedL s = s.queue ++ s.slot.toList ++ s.completed := rfl

/-- Enqueueing one pid permutes the placed list by consing that pid. -/
theorem placedL_perm_enqueue (s : Sched) (a : Nat) :
    ((s.queue ++ [a]) ++ s.slot.toList ++ s.completed).Perm (a :: placedL s) := by
  have h1 : (s.queue ++ [a]).Perm (a :: s.queue) := List.perm_append_singleton a s.queue
  have h2 := (h1.append_right (s.slot.toList ++ s.completed))
  rw [placedL_def]
  simp only [List.append_assoc]
  simp only [List.append_assoc] at h2
  exact h2

/-- One arrival iteration never changes any field but the store and the
queue. -/
theorem arrivalStep_frame (s : Sched) (pid : Nat) :
    (arrivalStep s pid).slot = s.slot ∧ (arrivalStep s pid).completed = s.completed ∧
    (arrivalStep s pid).time = s.time ∧ (arrivalStep s pid).n = s.n ∧
    (arrivalStep s pid).order = s.order ∧ (arrivalStep s pid).oracle = s.oracle ∧
    (arrivalStep s pid).quantum = s.quantum ∧ (arrivalStep s pid).slice = s.slice ∧
    (arrivalStep s pid).consumed = s.consumed := by
  unfold arrivalStep
  split <;> simp

/-- The arrival loop never changes any field but the store and the
queue. -/
theorem ca_fold_frame :
    ∀ (l : List Nat) (s : Sched),
      (l.foldl arrivalStep s).slot = s.slot ∧
      (l.foldl arrivalStep s).completed = s.completed ∧
      (l.foldl arrivalStep s).time = s.time ∧
      (l.foldl arrivalStep s).n = s.n ∧
      (l.foldl arrivalStep s).order = s.order ∧
      (l.foldl arrivalStep s).oracle = s.oracle ∧
      (l.foldl arrivalStep s).quantum = s.quantum ∧
      (l.foldl arrivalStep s).slice = s.slice ∧
      (l.foldl arrivalStep s).consumed = s.consumed := by
  intro l
  induction l with
  | nil => intro s; simp
  | cons a t ih =>
      intro s
      have h1 := arrivalStep_frame s a
      have h2 := ih (arrivalStep s a)
      simp only [List.foldl_cons]
      exact ⟨h2.1.trans h1.1, (h2.2.1).trans h1.2.1, (h2.2.2.1).trans h1.2.2.1,
        (h2.2.2.2.1).trans h1.2.2.2.1, (h2.2.2.2.2.1).trans h1.2.2.2.2.1,
        (h2.2.2.2.2.2.1).trans h1.2.2.2.2.2.1,
        (h2.2.2.2.2.2.2.1).trans h1.2.2.2.2.2.2.1,
        (h2.2.2.2.2.2.2.2.1).trans h1.2.2.2.2.2.2.2.1,
        (h2.2.2.2.2.2.2.2.2).trans h1.2.2.2.2.2.2.2.2⟩

/-- One arrival iteration leaves every non-state field of every process
unchanged. -/
theorem arrivalStep_store_fields (s : Sched) (pid a : Nat) :
    ((arrivalStep s pid).store a).remainingTime = (s.store a).remainingTime ∧
    ((arrivalStep s pid).store a).burstTime = (s.store a).burstTime ∧
    ((arrivalStep s pid).store a).arrivalTime = (s.store a).arrivalTime ∧
    ((arrivalStep s pid).store a).priority = (s.store a).priority ∧
    ((arrivalStep s pid).store a).runningTimestamps = (s.store a).runningTimestamps ∧
    ((arrivalStep s pid).store a).waitingTime = (s.store a).waitingTime := by
  unfold arrivalStep
  split
  · by_cases hap : a = pid
    · subst hap; simp
    · simp [setP_store_ne _ _ hap]
  · simp

/-- The arrival loop leaves every non-state field of every process
unchanged. -/
theorem ca_fold_store_fields :
    ∀ (l : List Nat) (s : Sched) (a : Nat),
      ((l.foldl arrivalStep s).store a).remainingTime = (s.store a).remainingTime ∧
      ((l.foldl arrivalStep s).store a).burstTime = (s.store a).burstTime ∧
      ((l.foldl arrivalStep s).store a).arrivalTime = (s.store a).arrivalTime ∧
      ((l.foldl arrivalStep s).store a).priority = (s.store a).priority ∧
      ((l.foldl arrivalStep s).store a).runningTimestamps = (s.store a).runningTimestamps ∧
      ((l.foldl arrivalStep s).store a).waitingTime = (s.store a).waitingTime := by
  intro l
  induction l with
  | nil => intro s a; simp
  | cons b t ih =>
      intro s a
      have h1 := arrivalStep_store_fields s b a
      have h2 := ih (arrivalStep s b) a
      simp only [List.foldl_cons]
      exact ⟨h2.1.trans h1.1, h2.2.1.trans h1.2.1, h2.2.2.1.trans h1.2.2.1,
        h2.2.2.2.1.trans h1.2.2.2.1, h2.2.2.2.2.1.trans h1.2.2.2.2.1,
        h2.2.2.2.2.2.trans h1.2.2.2.2.2⟩

/-- A process that is not NEW is completely untouched by the arrival
loop. -/
theorem ca_fold_store_not_new :
    ∀ (l : List Nat) (s : Sched) (a : Nat), (s.store a).state ≠ NEW →
      (l.foldl arrivalStep s).store a = s.store a := by
  intro l
  induction l with
  | nil => intro s a _; rfl
  | cons b t ih =>
      intro s a ha
      simp only [List.foldl_cons]
      have hstep : (arrivalStep s b).store a = s.store a := by
        unfold arrivalStep
        split
        · rename_i hcond
          have hab : a ≠ b := by
            intro he; rw [he] at ha; exact ha hcond.1
          simp [setP_store_ne _ _ hab]
        · rfl
      rw [ih (arrivalStep s b) a (by rw [hstep]; exact ha), hstep]

end SchedSim

namespace SchedSim

open PState

/-- Moving a NEW in-range process into the ready queue preserves the
master invariant. -/
theorem inv_enqueue_new (cfgs : List PConfig) {s : Sched} {a : Nat} (hInv : Inv cfgs s)
    (ha : a < s.n) (haNew : (s.store a).state = NEW) :
    Inv cfgs { s.setP a ((s.store a).updateState READY none) with queue := s.queue ++ [a] } := by
  obtain ⟨h1, h2, h3, h4, h5, h6, h7, h8, h9, h10⟩ := hInv
  have haNot : a ∉ placedL s := fun hmem => h5 a hmem haNew
  set t : Sched := { s.setP a ((s.store a).updateState READY none) with queue := s.queue ++ [a] }
    with ht
  have hperm : (placedL t).Perm (a :: placedL s) := placedL_perm_enqueue s a
  have hstore_ne : ∀ x, x ≠ a → t.store x = s.store x := by
    intro x hx
    exact setP_store_ne s _ hx
  have hstore_a : t.store a = { s.store a with state := READY } := by
    simp [ht]
  refine ⟨h1, h2, ?_, ?_, ?_, ?_, ?_, ?_, ?_, ?_⟩
  · exact (hperm.nodup_iff).mpr (List.nodup_cons.mpr ⟨haNot, h3⟩)
  · intro x hx
    rcases List.mem_cons.mp (hperm.mem_iff.mp hx) with hxa | hxp
    · rw [hxa]; exact ha
    · exact h4 x hxp
  · intro x hx
    rcases List.mem_cons.mp (hperm.mem_iff.mp hx) with hxa | hxp
    · rw [hxa, hstore_a]; simp
    · by_cases hxa2 : x = a
      · rw [hxa2, hstore_a]; simp
      · rw [hstore_ne x hxa2]; exact h5 x hxp
  · intro x hx
    by_cases hxa : x = a
    · right
      exact hperm.mem_iff.mpr (List.mem_cons.mpr (Or.inl hxa))
    · rw [hstore_ne x hxa]
      rcases h6 x hx with hn | hp
      · exact Or.inl hn
      · exact Or.inr (hperm.mem_iff.mpr (List.mem_cons.mpr (Or.inr hp)))
  · intro x hx
    have hx0 : x ∈ s.completed := hx
    have hxp : x ∈ placedL s := by
      rw [placedL_def]
      exact List.mem_append.mpr (Or.inr hx0)
    have hxa : x ≠ a := fun he => haNot (he ▸ hxp)
    rw [hstore_ne x hxa]
    exact h7 x hx0
  · intro x
    by_cases hxa : x = a
    · rw [hxa, hstore_a]; simp [h8 a]
    · rw [hstore_ne x hxa]; exact h8 x
  · intro x
    by_cases hxa : x = a
    · rw [hxa, hstore_a]; simp [h9 a]
    · rw [hstore_ne x hxa]; exact h9 x
  · have hrem : ∀ x, (t.store x).remainingTime = (s.store x).remainingTime := by
      intro x
      by_cases hxa : x = a
      · rw [hxa, hstore_a]
      · rw [hstore_ne x hxa]
    have hburst : ∀ x, (t.store x).burstTime = (s.store x).burstTime := by
      intro x
      by_cases hxa : x = a
      · rw [hxa, hstore_a]
      · rw [hstore_ne x hxa]
    have htn : t.n = s.n := rfl
    have htc : t.consumed = s.consumed := rfl
    rw [htn, htc]
    calc s.consumed + ∑ pid in Finset.range s.n, (t.store pid).remainingTime
        = s.consumed + ∑ pid in Finset.range s.n, (s.store pid).remainingTime := by
          rw [Finset.sum_congr rfl (fun x _ => hrem x)]
      _ = ∑ pid in Finset.range s.n, (s.store pid).burstTime := h10
      _ = ∑ pid in Finset.range s.n, (t.store pid).burstTime := by
          rw [Finset.sum_congr rfl (fun x _ => (hburst x).symm)]

/-- One arrival iteration preserves the master invariant. -/
theorem arrivalStep_inv (cfgs : List PConfig) {s : Sched} {a : Nat} (hInv : Inv cfgs s)
    (ha : a < s.n) : Inv cfgs (arrivalStep s a) := by
  unfold arrivalStep
  split
  · rename_i hcond
    exact inv_enqueue_new cfgs hInv ha hcond.1
  · exact hInv

/-- The arrival phase preserves the master invariant. -/
theorem checkArrivals_inv (cfgs : List PConfig) {s : Sched} (hInv : Inv cfgs s) :
    Inv cfgs (checkArrivals s) := by
  unfold checkArrivals
  have hgen : ∀ (l : List Nat) (s : Sched), Inv cfgs s → (∀ x ∈ l, x < s.n) →
      Inv cfgs (l.foldl arrivalStep s) := by
    intro l
    induction l with
    | nil => intro s h _; exact h
    | cons b t ih =>
        intro s h hb
        simp only [List.foldl_cons]
        have hstep := arrivalStep_inv cfgs h (hb b (List.mem_cons_self b t))
        have hn : (arrivalStep s b).n = s.n := (arrivalStep_frame s b).2.2.2.1
        exact ih (arrivalStep s b) hstep (fun x hx => hn ▸ hb x (List.mem_cons_of_mem b hx))
  exact hgen s.order s hInv (fun x hx => (hInv.2.1 x).mp hx)

end SchedSim

namespace SchedSim

open PState

/-- A state update always lands on the requested state. -/
@[simp] theorem updateState_state (p : Proc) (ns : PState) (t : Option Nat) :
    (p.updateState ns t).state = ns := by
  cases t with
  | none => rfl
  | some tt => rw [updateState_some]; split <;> rfl

/-- A state update never changes the remaining time. -/
@[simp] theorem updateState_rem (p : Proc) (ns : PState) (t : Option Nat) :
    (p.updateState ns t).remainingTime = p.remainingTime := by
  cases t with
  | none => rfl
  | some tt => rw [updateState_some]; split <;> rfl

/-- A state update never changes the burst time. -/
@[simp] theorem updateState_burst (p : Proc) (ns : PState) (t : Option Nat) :
    (p.updateState ns t).burstTime = p.burstTime := by
  cases t with
  | none => rfl
  | some tt => rw [updateState_some]; split <;> rfl

/-- A state update never changes the priority. -/
@[simp] theorem updateState_priority (p : Proc) (ns : PState) (t : Option Nat) :
    (p.updateState ns t).priority = p.priority := by
  cases t with
  | none => rfl
  | some tt => rw [updateState_some]; split <;> rfl

/-- A state update never changes the arrival time. -/
@[simp] theorem updateState_arrival (p : Proc) (ns : PState) (t : Option Nat) :
    (p.updateState ns t).arrivalTime = p.arrivalTime := by
  cases t with
  | none => rfl
  | some tt => rw [updateState_some]; split <;> rfl

/-- Rewriting one store entry with unchanged state, remaining time and
burst time preserves the master invariant. -/
theorem inv_setP_preserving (cfgs : List PConfig) {s : Sched} {pid : Nat} {p' : Proc}
    (hInv : Inv cfgs s)
    (hstate : p'.state = (s.store pid).state)
    (hrem : p'.remainingTime = (s.store pid).remainingTime)
    (hburst : p'.burstTime = (s.store pid).burstTime) :
    Inv cfgs (s.setP pid p') := by
  obtain ⟨h1, h2, h3, h4, h5, h6, h7, h8, h9, h10⟩ := hInv
  have hst : ∀ x, ((s.setP pid p').store x).state = (s.store x).state := by
    intro x
    by_cases hx : x = pid
    · rw [hx]; simp [hstate]
    · rw [setP_store_ne s _ hx]
  have hrm : ∀ x, ((s.setP pid p').store x).remainingTime = (s.store x).remainingTime := by
    intro x
    by_cases hx : x = pid
    · rw [hx]; simp [hrem]
    · rw [setP_store_ne s _ hx]
  have hbu : ∀ x, ((s.setP pid p').store x).burstTime = (s.store x).burstTime := by
    intro x
    by_cases hx : x = pid
    · rw [hx]; simp [hburst]
    · rw [setP_store_ne s _ hx]
  have hplaced : placedL (s.setP pid p') = placedL s := rfl
  refine ⟨h1, h2, ?_, ?_, ?_, ?_, ?_, ?_, ?_, ?_⟩
  · rw [hplaced]; exact h3
  · rw [hplaced]; exact h4
  · intro x hx
    rw [hst x]
    exact h5 x (hplaced ▸ hx)
  · intro x hx
    rcases h6 x hx with hn | hp
    · exact Or.inl ((hst x).trans hn)
    · exact Or.inr (hplaced ▸ hp)
  · intro x hx
    have hx0 : x ∈ s.completed := hx
    exact ⟨(hst x).trans (h7 x hx0).1, (hrm x).trans (h7 x hx0).2⟩
  · intro x
    rw [hbu x]
    exact h8 x
  · intro x
    rw [hrm x, hbu x]
    exact h9 x
  · have hn : (s.setP pid p').n = s.n := rfl
    have hc : (s.setP pid p').consumed = s.consumed := rfl
    rw [hn, hc, Finset.sum_congr rfl (fun x _ => hrm x),
      Finset.sum_congr rfl (fun x _ => hbu x)]
    exact h10

/-- One wait-accrual iteration preserves the master invariant. -/
theorem waitStep_inv (cfgs : List PConfig) {s : Sched} (pid : Nat) (hInv : Inv cfgs s) :
    Inv cfgs (waitStep s pid) :=
  inv_setP_preserving cfgs hInv (updateWaitingTime_state _ 1) (updateWaitingTime_rem _ 1)
    (updateWaitingTime_burst _ 1)

/-- The wait-accrual phase preserves the master invariant. -/
theorem updateWaitingTimes_inv (cfgs : List PConfig) {s : Sched} (hInv : Inv cfgs s) :
    Inv cfgs (updateWaitingTimes s) := by
  unfold updateWaitingTimes
  have hgen : ∀ (l : List Nat) (s : Sched), Inv cfgs s → Inv cfgs (l.foldl waitStep s) := by
    intro l
    induction l with
    | nil => intro s h; exact h
    | cons b t ih =>
        intro s h
        simp only [List.foldl_cons]
        exact ih (waitStep s b) (waitStep_inv cfgs b h)
  exact hgen s.queue s hInv

end SchedSim

namespace SchedSim

open PState

/-- In a dup-free triple concatenation, a member of the first block is
not in the third. -/
theorem nodup_first_third {l1 l2 l3 : List Nat} (h : (l1 ++ l2 ++ l3).Nodup) {x : Nat}
    (hx : x ∈ l1) : x ∉ l3 := by
  intro hc
  rw [List.nodup_append] at h
  exact h.2.2 (List.mem_append.mpr (Or.inl hx)) hc

/-- In a dup-free triple concatenation, a member of the second block is
not in the third. -/
theorem nodup_second_third {l1 l2 l3 : List Nat} (h : (l1 ++ l2 ++ l3).Nodup) {x : Nat}
    (hx : x ∈ l2) : x ∉ l3 := by
  intro hc
  rw [List.nodup_append] at h
  exact h.2.2 (List.mem_append.mpr (Or.inr hx)) hc

/-- In a dup-free triple concatenation, a member of the second block is
not in the first. -/
theorem nodup_second_first {l1 l2 l3 : List Nat} (h : (l1 ++ l2 ++ l3).Nodup) {x : Nat}
    (hx : x ∈ l2) : x ∉ l1 := by
  intro hc
  rw [List.nodup_append, List.nodup_append] at h
  exact h.1.2.2 hc hx

/-- A ready-queue member is not on the completed list. -/
theorem queue_not_completed {cfgs : List PConfig} {s : Sched} (hInv : Inv cfgs s) {x : Nat}
    (hx : x ∈ s.queue) : x ∉ s.completed :=
  nodup_first_third hInv.2.2.1 hx

/-- The running process is not on the completed list. -/
theorem slot_not_completed {cfgs : List PConfig} {s : Sched} (hInv : Inv cfgs s) {x : Nat}
    (hx : s.slot = some x) : x ∉ s.completed :=
  nodup_second_third hInv.2.2.1 (by rw [hx]; simp)

/-- The running process is not on the ready queue. -/
theorem slot_not_queue {cfgs : List PConfig} {s : Sched} (hInv : Inv cfgs s) {x : Nat}
    (hx : s.slot = some x) : x ∉ s.queue :=
  nodup_second_first hInv.2.2.1 (by rw [hx]; simp)

/-- Transport of the master invariant along a single-process state
rewrite together with any rearrangement of queue and slot that permutes
the placed list and keeps the completed list: this covers every dispatch
and every preemption move of the source. -/
theorem inv_transport (cfgs : List PConfig) {s t : Sched} {pid : Nat} {p' : Proc}
    (hInv : Inv cfgs s)
    (hmem : pid ∈ placedL s)
    (hnotc : pid ∉ s.completed)
    (hstate : p'.state ≠ NEW)
    (hrem : p'.remainingTime = (s.store pid).remainingTime)
    (hburst : p'.burstTime = (s.store pid).burstTime)
    (hn : t.n = s.n) (horder : t.order = s.order)
    (hcomp : t.completed = s.completed) (hcons : t.consumed = s.consumed)
    (hstore : t.store = Function.update s.store pid p')
    (hperm : (placedL t).Perm (placedL s)) :
    Inv cfgs t := by
  obtain ⟨h1, h2, h3, h4, h5, h6, h7, h8, h9, h10⟩ := hInv
  have hst : ∀ x, x ≠ pid → t.store x = s.store x := by
    intro x hx
    rw [hstore, Function.update_noteq hx]
  have hstp : t.store pid = p' := by
    rw [hstore, Function.update_same]
  refine ⟨hn.trans h1, ?_, ?_, ?_, ?_, ?_, ?_, ?_, ?_, ?_⟩
  · intro x
    rw [horder, hn]
    exact h2 x
  · exact (hperm.nodup_iff).mpr h3
  · intro x hx
    rw [hn]
    exact h4 x (hperm.mem_iff.mp hx)
  · intro x hx
    by_cases hxp : x = pid
    · rw [hxp, hstp]; exact hstate
    · rw [hst x hxp]
      exact h5 x (hperm.mem_iff.mp hx)
  · intro x hx
    rw [hn] at hx
    by_cases hxp : x = pid
    · exact Or.inr (hperm.mem_iff.mpr (hxp ▸ hmem))
    · rw [hst x hxp]
      rcases h6 x hx with hnw | hpl
      · exact Or.inl hnw
      · exact Or.inr (hperm.mem_iff.mpr hpl)
  · intro x hx
    rw [hcomp] at hx
    have hxp : x ≠ pid := fun he => hnotc (he ▸ hx)
    rw [hst x hxp]
    exact h7 x hx
  · intro x
    by_cases hxp : x = pid
    · rw [hxp, hstp, hburst]; exact h8 pid
    · rw [hst x hxp]; exact h8 x
  · intro x
    by_cases hxp : x = pid
    · rw [hxp, hstp, hrem, hburst]; exact h9 pid
    · rw [hst x hxp]; exact h9 x
  · have hremx : ∀ x, (t.store x).remainingTime = (s.store x).remainingTime := by
      intro x
      by_cases hxp : x = pid
      · rw [hxp, hstp, hrem]
      · rw [hst x hxp]
    have hbux : ∀ x, (t.store x).burstTime = (s.store x).burstTime := by
      intro x
      by_cases hxp : x = pid
      · rw [hxp, hstp, hburst]
      · rw [hst x hxp]
    rw [hn, hcons, Finset.sum_congr rfl (fun x _ => hremx x),
      Finset.sum_congr rfl (fun x _ => hbux x)]
    exact h10

/-- Unfolding of applyDispatch when the selection is empty. -/
theorem applyDispatch_eq_none {cfg : DispatchCfg} {s : Sched}
    (hp : cfg.pick s.queue s.store s.oracle = none) : applyDispatch cfg s = s := by
  unfold applyDispatch
  rw [hp]

/-- Unfolding of applyDispatch when the selection chooses a pid. -/
theorem applyDispatch_eq_some {cfg : DispatchCfg} {s : Sched} {pid : Nat} {q' o' : List Nat}
    (hp : cfg.pick s.queue s.store s.oracle = some (pid, q', o')) :
    applyDispatch cfg s =
      (if cfg.setSlice then
        { ({ s with queue := q', oracle := o', slot := some pid } : Sched).setP pid
            ((s.store pid).updateState RUNNING (if cfg.withTime then some s.time else none)) with
          slice := (s.quantum : Int) }
      else
        ({ s with queue := q', oracle := o', slot := some pid } : Sched).setP pid
          ((s.store pid).updateState RUNNING (if cfg.withTime then some s.time else none))) := by
  unfold applyDispatch
  rw [hp]
  rfl

/-- A guarded dispatch preserves the master invariant. -/
theorem tryDispatch_inv (cfgs : List PConfig) (cfg : DispatchCfg) (hok : PickOk cfg.pick)
    {s : Sched} (hInv : Inv cfgs s) : Inv cfgs (tryDispatch cfg s) := by
  unfold tryDispatch
  split
  · rename_i hslot
    rcases hp : cfg.pick s.queue s.store s.oracle with _ | ⟨pid, q', o'⟩
    · rw [applyDispatch_eq_none hp]
      exact hInv
    · have hqperm : (pid :: q').Perm s.queue :=
        (hok s.queue s.store s.oracle).2 pid q' o' hp
      have hpidmem : pid ∈ s.queue := hqperm.mem_iff.mp (List.mem_cons_self pid q')
      have hplmem : pid ∈ placedL s := by
        rw [placedL_def]
        exact List.mem_append.mpr (Or.inl (List.mem_append.mpr (Or.inl hpidmem)))
      have hplaceds : placedL s = s.queue ++ s.completed := by
        rw [placedL_def, hslot]
        simp
      have hmain : Inv cfgs
          (({ s with queue := q', oracle := o', slot := some pid } : Sched).setP pid
            ((s.store pid).updateState RUNNING (if cfg.withTime then some s.time else none))) := by
        refine inv_transport cfgs hInv hplmem (queue_not_completed hInv hpidmem) ?_ ?_ ?_
          rfl rfl rfl rfl rfl ?_
        · rw [updateState_state]; simp
        · rw [updateState_rem]
        · rw [updateState_burst]
        · rw [hplaceds]
          show ((q' ++ [pid]) ++ s.completed).Perm (s.queue ++ s.completed)
          exact ((List.perm_append_singleton pid q').trans hqperm).append_right s.completed
      rw [applyDispatch_eq_some hp]
      split
      · exact hmain
      · exact hmain
  · exact hInv

end SchedSim

namespace SchedSim

open PState

/-- A preemption move preserves the master invariant. -/
theorem preemptCurrent_inv (cfgs : List PConfig) {s : Sched} (hInv : Inv cfgs s) :
    Inv cfgs (preemptCurrent s) := by
  unfold preemptCurrent
  rcases hslot : s.slot with _ | pid
  · exact hInv
  · have hmem : pid ∈ placedL s := by
      rw [placedL_def, hslot]
      exact List.mem_append.mpr (Or.inl (List.mem_append.mpr (Or.inr (by simp))))
    refine inv_transport cfgs hInv hmem (slot_not_completed hInv hslot) ?_ ?_ ?_
      rfl rfl rfl rfl rfl ?_
    · rw [updateState_state]; simp
    · rw [updateState_rem]
    · rw [updateState_burst]
    · show ((s.queue ++ [pid]) ++ ([] : List Nat) ++ s.completed).Perm (placedL s)
      rw [placedL_def, hslot]
      simp

/-- Advancing the running process preserves the master invariant. -/
theorem execAdvance_inv (cfgs : List PConfig) {s : Sched} {pid : Nat} (hInv : Inv cfgs s)
    (hslot : s.slot = some pid) : Inv cfgs (execAdvance pid s) := by
  obtain ⟨h1, h2, h3, h4, h5, h6, h7, h8, h9, h10⟩ := hInv
  have hmem : pid ∈ placedL s := by
    rw [placedL_def, hslot]
    exact List.mem_append.mpr (Or.inl (List.mem_append.mpr (Or.inr (by simp))))
  have hpidn : pid < s.n := h4 pid hmem
  have hnotc : pid ∉ s.completed := slot_not_completed ⟨h1, h2, h3, h4, h5, h6, h7, h8, h9, h10⟩ hslot
  have hnnew : (s.store pid).state ≠ NEW := h5 pid hmem
  set pe := (s.store pid).execute 1 with hpe
  set t : Sched := execAdvance pid s with ht
  have hstp : t.store pid = pe.1 := by
    rw [ht]; unfold execAdvance; simp
  have hst : ∀ x, x ≠ pid → t.store x = s.store x := by
    intro x hx
    rw [ht]; unfold execAdvance
    show (s.setP pid pe.1).store x = s.store x
    exact setP_store_ne s _ hx
  have hframe : t.queue = s.queue ∧ t.slot = s.slot ∧ t.completed = s.completed ∧
      t.order = s.order ∧ t.n = s.n ∧ t.time = s.time := by
    rw [ht]; unfold execAdvance; exact ⟨rfl, rfl, rfl, rfl, rfl, rfl⟩
  have hplaced : placedL t = placedL s := by
    rw [placedL_def, placedL_def, hframe.1, hframe.2.1, hframe.2.2.1]
  have hcons : t.consumed = s.consumed + ((s.store pid).remainingTime - pe.1.remainingTime) := by
    rw [ht]; unfold execAdvance; rfl
  refine ⟨hframe.2.2.2.2.1.trans h1, ?_, ?_, ?_, ?_, ?_, ?_, ?_, ?_, ?_⟩
  · intro x
    rw [hframe.2.2.2.1, hframe.2.2.2.2.1]
    exact h2 x
  · rw [hplaced]; exact h3
  · intro x hx
    rw [hframe.2.2.2.2.1]
    exact h4 x (hplaced ▸ hx)
  · intro x hx
    by_cases hxp : x = pid
    · rw [hxp, hstp]
      exact execute_state_ne_new 1 hnnew
    · rw [hst x hxp]
      exact h5 x (hplaced ▸ hx)
  · intro x hx
    rw [hframe.2.2.2.2.1] at hx
    by_cases hxp : x = pid
    · exact Or.inr (hplaced ▸ (hxp ▸ hmem))
    · rw [hst x hxp]
      rcases h6 x hx with hnw | hpl
      · exact Or.inl hnw
      · exact Or.inr (hplaced ▸ hpl)
  · intro x hx
    have hx0 : x ∈ s.completed := hframe.2.2.1 ▸ hx
    have hxp : x ≠ pid := fun he => hnotc (he ▸ hx0)
    rw [hst x hxp]
    exact h7 x hx0
  · intro x
    by_cases hxp : x = pid
    · rw [hxp, hstp, execute_burst]
      exact h8 pid
    · rw [hst x hxp]; exact h8 x
  · intro x
    by_cases hxp : x = pid
    · rw [hxp, hstp, execute_burst]
      exact le_trans (execute_rem_le (s.store pid) 1) (h9 pid)
    · rw [hst x hxp]; exact h9 x
  · rw [hframe.2.2.2.2.1, hcons]
    have hpidr : pid ∈ Finset.range s.n := Finset.mem_range.mpr hpidn
    have hs1 : ∑ x in Finset.range s.n, (t.store x).remainingTime
        = (∑ x in (Finset.range s.n).erase pid, (s.store x).remainingTime)
          + pe.1.remainingTime := by
      rw [← Finset.sum_erase_add (Finset.range s.n) _ hpidr]
      have e1 : ∑ x in (Finset.range s.n).erase pid, (t.store x).remainingTime
          = ∑ x in (Finset.range s.n).erase pid, (s.store x).remainingTime :=
        Finset.sum_congr rfl (fun x hx => by rw [hst x (Finset.ne_of_mem_erase hx)])
      rw [e1, hstp]
    have hs2 : ∑ x in Finset.range s.n, (s.store x).remainingTime
        = (∑ x in (Finset.range s.n).erase pid, (s.store x).remainingTime)
          + (s.store pid).remainingTime := by
      rw [← Finset.sum_erase_add (Finset.range s.n) _ hpidr]
    have hs3 : ∑ x in Finset.range s.n, (t.store x).burstTime
        = ∑ x in Finset.range s.n, (s.store x).burstTime := by
      refine Finset.sum_congr rfl (fun x _ => ?_)
      by_cases hxp : x = pid
      · rw [hxp, hstp, execute_burst]
      · rw [hst x hxp]
    have hle : pe.1.remainingTime ≤ (s.store pid).remainingTime := execute_rem_le _ 1
    rw [hs1, hs3]
    rw [hs2] at h10
    omega

/-- The shared completion handling preserves the master invariant. -/
theorem execFinish_inv (cfgs : List PConfig) (redis : Option DispatchCfg)
    (hok : ∀ cfg, redis = some cfg → PickOk cfg.pick) {s : Sched} {pid : Nat}
    (hInv : Inv cfgs s) (hslot : s.slot = some pid)
    (hterm : (s.store pid).state = TERMINATED)
    (hrem0 : (s.store pid).remainingTime = 0) :
    Inv cfgs (execFinish redis pid s) := by
  have h2 : Inv cfgs (s.setP pid ((s.store pid).complete s.time).1) := by
    refine inv_setP_preserving cfgs hInv ?_ ?_ ?_
    · rw [complete_fst]; rw [hterm]
    · rw [complete_fst]
    · rw [complete_fst]
  set s2 : Sched := s.setP pid ((s.store pid).complete s.time).1 with hs2
  have hslot2 : s2.slot = some pid := by rw [hs2]; simp [hslot]
  have hterm2 : (s2.store pid).state = TERMINATED := by
    rw [hs2]; simp
  have hrem02 : (s2.store pid).remainingTime = 0 := by
    rw [hs2]; simp [hrem0]
  have h3 : Inv cfgs { s2 with completed := s2.completed ++ [pid], slot := none } := by
    obtain ⟨g1, g2, g3, g4, g5, g6, g7, g8, g9, g10⟩ := h2
    have hmem : pid ∈ placedL s2 := by
      rw [placedL_def, hslot2]
      exact List.mem_append.mpr (Or.inl (List.mem_append.mpr (Or.inr (by simp))))
    have hperm : (placedL { s2 with completed := s2.completed ++ [pid], slot := none }).Perm
        (placedL s2) := by
      show (s2.queue ++ ([] : List Nat) ++ (s2.completed ++ [pid])).Perm (placedL s2)
      rw [placedL_def, hslot2]
      have e1 : s2.queue ++ ([] : List Nat) ++ (s2.completed ++ [pid])
          = s2.queue ++ (s2.completed ++ [pid]) := by simp
      have e2 : (s2.queue ++ (some pid).toList ++ s2.completed)
          = s2.queue ++ (pid :: s2.completed) := by simp
      rw [e1, e2]
      exact (List.perm_append_singleton pid s2.completed).symm.append_left s2.queue |>.symm
        |>.symm.trans (List.Perm.refl _) |>.symm
    refine ⟨g1, g2, ?_, ?_, ?_, ?_, ?_, g8, g9, g10⟩
    · exact (hperm.nodup_iff).mpr g3
    · intro x hx
      exact g4 x (hperm.mem_iff.mp hx)
    · intro x hx
      exact g5 x (hperm.mem_iff.mp hx)
    · intro x hx
      rcases g6 x hx with hnw | hpl
      · exact Or.inl hnw
      · exact Or.inr (hperm.mem_iff.mpr hpl)
    · intro x hx
      rcases List.mem_append.mp hx with hold | hnewm
      · exact g7 x hold
      · have hxp : x = pid := by simpa using hnewm
        rw [hxp]
        exact ⟨hterm2, hrem02⟩
  unfold execFinish
  rcases redis with _ | cfg
  · exact h3
  · exact tryDispatch_inv cfgs cfg (hok cfg rfl) h3

/-- The execute phase preserves the master invariant. -/
theorem execStep_inv (cfgs : List PConfig) (redis : Option DispatchCfg)
    (hok : ∀ cfg, redis = some cfg → PickOk cfg.pick) {s : Sched} (hInv : Inv cfgs s) :
    Inv cfgs (execStep redis s) := by
  unfold execStep
  rcases hslot : s.slot with _ | pid
  · exact hInv
  · have hadv := execAdvance_inv cfgs hInv hslot
    have hslotadv : (execAdvance pid s).slot = some pid := by
      unfold execAdvance; simp [hslot]
    show Inv cfgs (if ((s.store pid).execute 1).2 then execFinish redis pid (execAdvance pid s)
      else execAdvance pid s)
    split
    · rename_i hdone
      have hd := execute_done hdone
      refine execFinish_inv cfgs redis hok hadv hslotadv ?_ ?_
      · have : (execAdvance pid s).store pid = ((s.store pid).execute 1).1 := by
          unfold execAdvance; simp
        rw [this]; exact hd.1
      · have : (execAdvance pid s).store pid = ((s.store pid).execute 1).1 := by
          unfold execAdvance; simp
        rw [this]; exact hd.2
    · exact hadv

end SchedSim

namespace SchedSim

open PState

/-- The master invariant does not mention the clock. -/
theorem inv_set_time (cfgs : List PConfig) {s : Sched} (t : Nat) (h : Inv cfgs s) :
    Inv cfgs { s with time := t } := by
  obtain ⟨h1, h2, h3, h4, h5, h6, h7, h8, h9, h10⟩ := h
  exact ⟨h1, h2, h3, h4, h5, h6, h7, h8, h9, h10⟩

/-- The master invariant does not mention the time slice. -/
theorem inv_set_slice (cfgs : List PConfig) {s : Sched} (z : Int) (h : Inv cfgs s) :
    Inv cfgs { s with slice := z } := by
  obtain ⟨h1, h2, h3, h4, h5, h6, h7, h8, h9, h10⟩ := h
  exact ⟨h1, h2, h3, h4, h5, h6, h7, h8, h9, h10⟩

/-- Advancing a process that then reports completion, followed by the
shared completion handling, preserves the master invariant. -/
theorem execIfDone_inv (cfgs : List PConfig) (redis : Option DispatchCfg)
    (hok : ∀ cfg, redis = some cfg → PickOk cfg.pick) {s : Sched} {pid : Nat}
    (hInv : Inv cfgs s) (hslot : s.slot = some pid)
    (hdone : ((s.store pid).execute 1).2 = true) :
    Inv cfgs (execFinish redis pid (execAdvance pid s)) := by
  have hadv := execAdvance_inv cfgs hInv hslot
  have hslotadv : (execAdvance pid s).slot = some pid := by
    unfold execAdvance; simp [hslot]
  have hso : (execAdvance pid s).store pid = ((s.store pid).execute 1).1 := by
    unfold execAdvance; simp
  have hd := execute_done hdone
  refine execFinish_inv cfgs redis hok hadv hslotadv ?_ ?_
  · rw [hso]; exact hd.1
  · rw [hso]; exact hd.2

/-- The Round Robin quantum-expiry handling preserves the master
invariant. -/
theorem rrExpiry_inv (cfgs : List PConfig) {s : Sched} {pid : Nat} (hInv : Inv cfgs s)
    (hslot : s.slot = some pid) : Inv cfgs (rrExpiry pid s) := by
  have hmem : pid ∈ placedL s := by
    rw [placedL_def, hslot]
    exact List.mem_append.mpr (Or.inl (List.mem_append.mpr (Or.inr (by simp))))
  have ht1 : Inv cfgs (s.setP pid ((s.store pid).updateState READY none)) := by
    refine inv_transport cfgs hInv hmem (slot_not_completed hInv hslot) ?_ ?_ ?_
      rfl rfl rfl rfl rfl (List.Perm.refl _)
    · rw [updateState_state]; simp
    · rw [updateState_rem]
    · rw [updateState_burst]
  unfold rrExpiry
  split
  · set t1 : Sched := s.setP pid ((s.store pid).updateState READY none) with hdt1
    have ht2 : Inv cfgs { t1 with queue := s.queue ++ [pid], slot := none } := by
      refine inv_transport cfgs ht1 ?_ ?_ ?_ ?_ ?_ rfl rfl rfl rfl
        ((Function.update_eq_self pid t1.store).symm) ?_
      · rw [placedL_def]
        have : t1.slot = some pid := by rw [hdt1]; simp [hslot]
        rw [this]
        exact List.mem_append.mpr (Or.inl (List.mem_append.mpr (Or.inr (by simp))))
      · have : t1.slot = some pid := by rw [hdt1]; simp [hslot]
        exact slot_not_completed ht1 this
      · rw [hdt1]; simp
      · rfl
      · rfl
      · show ((s.queue ++ [pid]) ++ ([] : List Nat) ++ t1.completed).Perm (placedL t1)
        rw [placedL_def]
        have h1 : t1.slot = some pid := by rw [hdt1]; simp [hslot]
        have h2 : t1.queue = s.queue := by rw [hdt1]; simp
        rw [h1, h2]
        simp
    exact tryDispatch_inv cfgs rrCfg pickHead_ok ht2
  · exact inv_set_slice cfgs _ ht1

/-- The selection procedure of every dispatch configuration used by the
seven policies is well behaved. -/
theorem cfg_pick_ok :
    PickOk fcfsCfg.pick ∧ PickOk sjfCfg.pick ∧ PickOk srtfCfg.pick ∧ PickOk priCfg.pick ∧
    PickOk ppCfg.pick ∧ PickOk randCfg.pick ∧ PickOk rrCfg.pick :=
  ⟨pickHead_ok, pickSort_ok keyRem, pickSort_ok keyRem, pickSort_ok keyPri,
    pickSort_ok keyPri, pickRand_ok, pickHead_ok⟩

/-- A tick of the shared simple shape preserves the master invariant. -/
theorem simpleTick_inv (cfgs : List PConfig) (cfg : DispatchCfg) (hok : PickOk cfg.pick)
    {s : Sched} (hInv : Inv cfgs s) : Inv cfgs (simpleTick cfg s) := by
  unfold simpleTick
  exact execStep_inv cfgs (some cfg) (fun c hc => by injection hc with hc; rw [← hc]; exact hok)
    (updateWaitingTimes_inv cfgs (tryDispatch_inv cfgs cfg hok
      (checkArrivals_inv cfgs (inv_set_time cfgs _ hInv))))

/-- The SRTF tick preserves the master invariant. -/
theorem srtfTick_inv (cfgs : List PConfig) {s : Sched} (hInv : Inv cfgs s) :
    Inv cfgs (srtfTick s) := by
  unfold srtfTick
  have h1 : Inv cfgs (checkArrivals { s with time := s.time + 1 }) :=
    checkArrivals_inv cfgs (inv_set_time cfgs _ hInv)
  have h2 : Inv cfgs (if hasShorterRemainingTimeProcess (checkArrivals { s with time := s.time + 1 })
      then preemptCurrent (checkArrivals { s with time := s.time + 1 })
      else checkArrivals { s with time := s.time + 1 }) := by
    split
    · exact preemptCurrent_inv cfgs h1
    · exact h1
  exact execStep_inv cfgs none (fun c hc => by cases hc)
    (updateWaitingTimes_inv cfgs (tryDispatch_inv cfgs srtfCfg (pickSort_ok keyRem) h2))

/-- The Priority-Preemptive tick preserves the master invariant. -/
theorem ppTick_inv (cfgs : List PConfig) {s : Sched} (hInv : Inv cfgs s) :
    Inv cfgs (ppTick s) := by
  unfold ppTick
  have h1 : Inv cfgs (checkArrivals { s with time := s.time + 1 }) :=
    checkArrivals_inv cfgs (inv_set_time cfgs _ hInv)
  have h2 : Inv cfgs (if hasHigherPriorityProcess (checkArrivals { s with time := s.time + 1 })
      then preemptCurrent (checkArrivals { s with time := s.time + 1 })
      else checkArrivals { s with time := s.time + 1 }) := by
    split
    · exact preemptCurrent_inv cfgs h1
    · exact h1
  exact execStep_inv cfgs none (fun c hc => by cases hc)
    (updateWaitingTimes_inv cfgs (tryDispatch_inv cfgs ppCfg (pickSort_ok keyPri) h2))

/-- Unfolding of the Round Robin execute phase with an empty slot. -/
theorem rrExecPhase_none {s : Sched} (h : s.slot = none) : rrExecPhase s = s := by
  unfold rrExecPhase
  rw [h]

/-- Unfolding of the Round Robin execute phase with a running process. -/
theorem rrExecPhase_some {s : Sched} {pid : Nat} (h : s.slot = some pid) :
    rrExecPhase s =
      (if (({ s with slice := s.slice - 1 } : Sched).store pid).execute.2 = true then
        execFinish (some rrCfg) pid (execAdvance pid { s with slice := s.slice - 1 })
      else if ({ s with slice := s.slice - 1 } : Sched).slice ≤ 0 then
        rrExpiry pid (execAdvance pid { s with slice := s.slice - 1 })
      else execAdvance pid { s with slice := s.slice - 1 }) := by
  unfold rrExecPhase
  rw [h]

/-- The execute phase of the Round Robin tick preserves the master
invariant. -/
theorem rrExecPhase_inv (cfgs : List PConfig) {t : Sched} (h : Inv cfgs t) :
    Inv cfgs (rrExecPhase t) := by
  rcases hslot : t.slot with _ | pid
  · rw [rrExecPhase_none hslot]
    exact h
  · rw [rrExecPhase_some hslot]
    have h2 : Inv cfgs { t with slice := t.slice - 1 } := inv_set_slice cfgs _ h
    have hslot2 : ({ t with slice := t.slice - 1 } : Sched).slot = some pid := hslot
    split
    · rename_i hdone
      exact execIfDone_inv cfgs (some rrCfg)
        (fun c hc => by injection hc with hc; rw [← hc]; exact pickHead_ok) h2 hslot2 hdone
    · split
      · have hadv := execAdvance_inv cfgs h2 hslot2
        have hsl : (execAdvance pid { t with slice := t.slice - 1 }).slot = some pid := hslot
        exact rrExpiry_inv cfgs hadv hsl
      · exact execAdvance_inv cfgs h2 hslot2

/-- The Round Robin tick preserves the master invariant. -/
theorem rrTick_inv (cfgs : List PConfig) {s : Sched} (hInv : Inv cfgs s) :
    Inv cfgs (rrTick s) := by
  unfold rrTick
  exact rrExecPhase_inv cfgs
    (updateWaitingTimes_inv cfgs (tryDispatch_inv cfgs rrCfg pickHead_ok
      (checkArrivals_inv cfgs (inv_set_time cfgs _ hInv))))

/-- Every policy's tick preserves the master invariant. -/
theorem tick_inv (cfgs : List PConfig) (p : Policy) {s : Sched} (hInv : Inv cfgs s) :
    Inv cfgs (tick p s) := by
  cases p with
  | FCFS => exact simpleTick_inv cfgs fcfsCfg pickHead_ok hInv
  | SJF => exact simpleTick_inv cfgs sjfCfg (pickSort_ok keyRem) hInv
  | SRTF => exact srtfTick_inv cfgs hInv
  | RR => exact rrTick_inv cfgs hInv
  | PRIORITY => exact simpleTick_inv cfgs priCfg (pickSort_ok keyPri) hInv
  | PRIORITY_P => exact ppTick_inv cfgs hInv
  | RANDOM => exact simpleTick_inv cfgs randCfg pickRand_ok hInv

/-- The freshly constructed scheduler satisfies the master invariant. -/
theorem initSched_inv (p : Policy) (cfgs : List PConfig) (q : Nat) (o : List Nat) :
    Inv cfgs (initSched p cfgs q o) := by
  refine ⟨rfl, ?_, ?_, ?_, ?_, ?_, ?_, ?_, ?_, ?_⟩
  · intro x
    show x ∈ (initSched p cfgs q o).order ↔ x < cfgs.length
    unfold initSched
    cases p with
    | FCFS => exact ((insSort_perm _ (List.range cfgs.length)).mem_iff).trans List.mem_range
    | SJF => exact List.mem_range
    | SRTF => exact List.mem_range
    | RR => exact List.mem_range
    | PRIORITY => exact List.mem_range
    | PRIORITY_P => exact List.mem_range
    | RANDOM => exact List.mem_range
  · show (([] : List Nat) ++ ([] : List Nat) ++ ([] : List Nat)).Nodup
    simp
  · intro x hx
    simp [placedL_def, initSched] at hx
  · intro x hx
    simp [placedL_def, initSched] at hx
  · intro x _
    exact Or.inl rfl
  · intro x hx
    simp [initSched] at hx
  · intro x
    rfl
  · intro x
    exact le_refl _
  · show 0 + ∑ x in Finset.range cfgs.length, (Proc.mk0 (cfgs.getD x ⟨0, 0, 0⟩)).remainingTime
        = ∑ x in Finset.range cfgs.length, (Proc.mk0 (cfgs.getD x ⟨0, 0, 0⟩)).burstTime
    rw [Nat.zero_add]
    exact Finset.sum_congr rfl (fun x _ => rfl)

/-- Every reachable state of every policy's run satisfies the master
invariant. -/
theorem runTicks_inv (p : Policy) (cfgs : List PConfig) (q : Nat) (o : List Nat) :
    ∀ k, Inv cfgs (runTicks p cfgs q o k) := by
  intro k
  induction k with
  | zero => exact initSched_inv p cfgs q o
  | succ j ih => exact tick_inv cfgs p ih

end SchedSim

namespace SchedSim

open PState

/-- In a dup-free triple concatenation, a member of the first block is
not in the second. -/
theorem nodup_first_second {l1 l2 l3 : List Nat} (h : (l1 ++ l2 ++ l3).Nodup) {x : Nat}
    (hx : x ∈ l1) : x ∉ l2 := by
  intro hc
  rw [List.nodup_append, List.nodup_append] at h
  exact h.1.2.2 hx hc

/-- The master invariant yields the exactly-one-place property for
every in-range pid. -/
theorem inv_exactly_one {cfgs : List PConfig} {s : Sched} (hInv : Inv cfgs s) :
    ∀ pid < s.n, inExactlyOneOf s pid := by
  obtain ⟨h1, h2, h3, h4, h5, h6, h7, h8, h9, h10⟩ := hInv
  intro pid hp
  have hqmem : pid ∈ s.queue → pid ∈ placedL s := by
    intro h
    rw [placedL_def]
    exact List.mem_append.mpr (Or.inl (List.mem_append.mpr (Or.inl h)))
  have hsmem : s.slot = some pid → pid ∈ placedL s := by
    intro h
    rw [placedL_def, h]
    exact List.mem_append.mpr (Or.inl (List.mem_append.mpr (Or.inr (by simp))))
  have hcmem : pid ∈ s.completed → pid ∈ placedL s := by
    intro h
    rw [placedL_def]
    exact List.mem_append.mpr (Or.inr h)
  by_cases hnew : (s.store pid).state = NEW
  · exact Or.inl ⟨hnew,
      fun h => h5 pid (hqmem h) hnew,
      fun h => h5 pid (hsmem h) hnew,
      fun h => h5 pid (hcmem h) hnew⟩
  · have hpl : pid ∈ placedL s := (h6 pid hp).resolve_left hnew
    rw [placedL_def] at hpl
    rcases List.mem_append.mp hpl with hqs | hc
    · rcases List.mem_append.mp hqs with hq | hsl
      · refine Or.inr (Or.inl ⟨hq, hnew, ?_, nodup_first_third h3 hq⟩)
        intro hs
        exact nodup_first_second h3 hq (by rw [hs]; simp)
      · have hs : s.slot = some pid := by
          cases hslot : s.slot with
          | none => rw [hslot] at hsl; simp at hsl
          | some y =>
              rw [hslot] at hsl
              simp at hsl
              rw [hsl]
        refine Or.inr (Or.inr (Or.inl ⟨hs, hnew, ?_, nodup_second_third h3 hsl⟩))
        intro hq
        exact nodup_first_second h3 hq hsl
    · refine Or.inr (Or.inr (Or.inr ⟨hc, hnew, ?_, ?_⟩))
      · intro hq
        exact nodup_first_third h3 hq hc
      · intro hs
        have hsl2 : pid ∈ s.slot.toList := by rw [hs]; simp
        exact nodup_second_third h3 hsl2 hc

/-- Sum of burst times of the initial store over the pid range. -/
theorem sum_range_getD_burst (cfgs : List PConfig) :
    ∑ i in Finset.range cfgs.length, (cfgs.getD i ⟨0, 0, 0⟩).burstTime = sumBursts cfgs := by
  induction cfgs with
  | nil => simp [sumBursts]
  | cons c t ih =>
      rw [List.length_cons, Finset.sum_range_succ']
      simp only [List.getD_cons_succ, List.getD_cons_zero]
      rw [ih]
      show sumBursts t + c.burstTime = sumBursts (c :: t)
      unfold sumBursts
      simp [Nat.add_comm]

/-- When the completed count has reached the process count, every
process is completed. -/
theorem inv_allDone_mem {cfgs : List PConfig} {s : Sched} (hInv : Inv cfgs s)
    (hlen : s.completed.length = s.n) : ∀ pid < s.n, pid ∈ s.completed := by
  obtain ⟨h1, h2, h3, h4, h5, h6, h7, h8, h9, h10⟩ := hInv
  have hcmem : ∀ x ∈ s.completed, x ∈ placedL s := by
    intro x h
    rw [placedL_def]
    exact List.mem_append.mpr (Or.inr h)
  have hnodup : s.completed.Nodup := by
    rw [placedL_def, List.nodup_append] at h3
    exact h3.2.1
  have hsub : s.completed.toFinset ⊆ Finset.range s.n := by
    intro x hx
    exact Finset.mem_range.mpr (h4 x (hcmem x (List.mem_toFinset.mp hx)))
  have hcard : s.completed.toFinset.card = s.n := by
    rw [List.toFinset_card_of_nodup hnodup, hlen]
  have heq : s.completed.toFinset = Finset.range s.n := by
    apply Finset.eq_of_subset_of_card_le hsub
    rw [hcard, Finset.card_range]
  intro pid hp
  have : pid ∈ s.completed.toFinset := by
    rw [heq]
    exact Finset.mem_range.mpr hp
  exact List.mem_toFinset.mp this

/-- When every process is completed, the consumed CPU time equals the
sum of the initial burst times. -/
theorem inv_allDone_consumed {cfgs : List PConfig} {s : Sched} (hInv : Inv cfgs s)
    (hlen : s.completed.length = s.n) : s.consumed = sumBursts cfgs := by
  have hmem := inv_allDone_mem hInv hlen
  obtain ⟨h1, h2, h3, h4, h5, h6, h7, h8, h9, h10⟩ := hInv
  have hzero : ∑ pid in Finset.range s.n, (s.store pid).remainingTime = 0 := by
    apply Finset.sum_eq_zero
    intro x hx
    exact (h7 x (hmem x (Finset.mem_range.mp hx))).2
  have hburst : ∑ pid in Finset.range s.n, (s.store pid).burstTime = sumBursts cfgs := by
    rw [Finset.sum_congr rfl (fun x _ => h8 x), h1]
    exact sum_range_getD_burst cfgs
  rw [hzero] at h10
  rw [← hburst]
  omega

end SchedSim

namespace SchedSim

open PState

/-- The arrival loop never touches a timestamp log. -/
theorem ts_checkArrivals {s : Sched} (h : tsEmptyAll s) : tsEmptyAll (checkArrivals s) := by
  intro pid
  unfold checkArrivals
  rw [(ca_fold_store_fields s.order s pid).2.2.2.2.1]
  exact h pid

/-- The wait-accrual loop never touches a timestamp log. -/
theorem ts_updateWaitingTimes {s : Sched} (h : tsEmptyAll s) :
    tsEmptyAll (updateWaitingTimes s) := by
  unfold updateWaitingTimes
  have hgen : ∀ (l : List Nat) (s : Sched), tsEmptyAll s → tsEmptyAll (l.foldl waitStep s) := by
    intro l
    induction l with
    | nil => intro s h; exact h
    | cons b t ih =>
        intro s h
        simp only [List.foldl_cons]
        refine ih (waitStep s b) ?_
        intro x
        unfold waitStep
        by_cases hx : x = b
        · rw [hx]; simp; exact h b
        · rw [setP_store_ne s _ hx]; exact h x
  exact hgen s.queue s h

/-- A timestamp-free dispatch never touches a timestamp log. -/
theorem ts_tryDispatch (cfg : DispatchCfg) (hwt : cfg.withTime = false) {s : Sched}
    (h : tsEmptyAll s) : tsEmptyAll (tryDispatch cfg s) := by
  unfold tryDispatch
  split
  · rcases hp : cfg.pick s.queue s.store s.oracle with _ | ⟨pid, q', o'⟩
    · rw [applyDispatch_eq_none hp]
      exact h
    · rw [applyDispatch_eq_some hp]
      have hbody : tsEmptyAll
          (({ s with queue := q', oracle := o', slot := some pid } : Sched).setP pid
            ((s.store pid).updateState RUNNING (if cfg.withTime then some s.time else none))) := by
        intro x
        by_cases hx : x = pid
        · rw [hx]
          simp [hwt]
          exact h pid
        · rw [setP_store_ne _ _ hx]
          exact h x
      split
      · exact hbody
      · exact hbody
  · exact h

/-- Advancing the running process never touches a timestamp log. -/
theorem ts_execAdvance (pid : Nat) {s : Sched} (h : tsEmptyAll s) :
    tsEmptyAll (execAdvance pid s) := by
  intro x
  by_cases hx : x = pid
  · rw [hx]
    have hs1 : (execAdvance pid s).store pid = ((s.store pid).execute 1).1 := by
      unfold execAdvance; simp
    rw [hs1, execute_ts]
    exact h pid
  · have hs2 : (execAdvance pid s).store x = s.store x := by
      unfold execAdvance
      show (s.setP pid ((s.store pid).execute 1).1).store x = s.store x
      exact setP_store_ne s _ hx
    rw [hs2]
    exact h x

/-- A timestamp-free completion handling never touches a timestamp
log. -/
theorem ts_execFinish (redis : Option DispatchCfg)
    (hwt : ∀ cfg, redis = some cfg → cfg.withTime = false) (pid : Nat) {s : Sched}
    (h : tsEmptyAll s) : tsEmptyAll (execFinish redis pid s) := by
  have h2 : tsEmptyAll ({ s.setP pid ((s.store pid).complete s.time).1 with
      completed := s.completed ++ [pid], slot := none }) := by
    intro x
    by_cases hx : x = pid
    · rw [hx]
      have hs1 : ({ s.setP pid ((s.store pid).complete s.time).1 with
          completed := s.completed ++ [pid], slot := none } : Sched).store pid
            = ((s.store pid).complete s.time).1 := by simp
      rw [hs1, complete_fst]
      exact h pid
    · have hs2 : ({ s.setP pid ((s.store pid).complete s.time).1 with
          completed := s.completed ++ [pid], slot := none } : Sched).store x = s.store x := by
        show (s.setP pid ((s.store pid).complete s.time).1).store x = s.store x
        exact setP_store_ne s _ hx
      rw [hs2]
      exact h x
  unfold execFinish
  rcases redis with _ | cfg
  · exact h2
  · exact ts_tryDispatch cfg (hwt cfg rfl) h2

/-- The shared execute phase with a timestamp-free redispatch never
touches a timestamp log. -/
theorem ts_execStep (redis : Option DispatchCfg)
    (hwt : ∀ cfg, redis = some cfg → cfg.withTime = false) {s : Sched}
    (h : tsEmptyAll s) : tsEmptyAll (execStep redis s) := by
  unfold execStep
  rcases hslot : s.slot with _ | pid
  · exact h
  · show tsEmptyAll (if ((s.store pid).execute 1).2 then
        execFinish redis pid (execAdvance pid s) else execAdvance pid s)
    split
    · exact ts_execFinish redis hwt pid (ts_execAdvance pid h)
    · exact ts_execAdvance pid h

/-- A preemption move never touches a timestamp log. -/
theorem ts_preemptCurrent {s : Sched} (h : tsEmptyAll s) : tsEmptyAll (preemptCurrent s) := by
  unfold preemptCurrent
  rcases hslot : s.slot with _ | pid
  · exact h
  · intro x
    by_cases hx : x = pid
    · rw [hx]
      have hs1 : ((s.setP pid ((s.store pid).updateState READY none)).store pid).runningTimestamps
          = (s.store pid).runningTimestamps := by simp
      show ((s.setP pid ((s.store pid).updateState READY none)).store pid).runningTimestamps = []
      rw [hs1]
      exact h pid
    · show ((s.setP pid ((s.store pid).updateState READY none)).store x).runningTimestamps = []
      rw [setP_store_ne s _ hx]
      exact h x

/-- The Round Robin quantum-expiry handling never touches a timestamp
log. -/
theorem ts_rrExpiry (pid : Nat) {s : Sched} (h : tsEmptyAll s) :
    tsEmptyAll (rrExpiry pid s) := by
  have h1 : tsEmptyAll (s.setP pid ((s.store pid).updateState READY none)) := by
    intro x
    by_cases hx : x = pid
    · rw [hx]
      simp
      exact h pid
    · rw [setP_store_ne s _ hx]
      exact h x
  unfold rrExpiry
  split
  · exact ts_tryDispatch rrCfg rfl (fun x => h1 x)
  · exact fun x => h1 x

/-- The Round Robin execute phase never touches a timestamp log. -/
theorem ts_rrExecPhase {s : Sched} (h : tsEmptyAll s) : tsEmptyAll (rrExecPhase s) := by
  rcases hslot : s.slot with _ | pid
  · rw [rrExecPhase_none hslot]
    exact h
  · rw [rrExecPhase_some hslot]
    have h2 : tsEmptyAll ({ s with slice := s.slice - 1 } : Sched) := fun x => h x
    split
    · exact ts_execFinish (some rrCfg) (fun c hc => by injection hc with hc; rw [← hc]; rfl)
        pid (ts_execAdvance pid h2)
    · split
      · exact ts_rrExpiry pid (ts_execAdvance pid h2)
      · exact ts_execAdvance pid h2

/-- Every policy except SJF runs a tick without touching any timestamp
log. -/
theorem tick_ts_preserved (p : Policy) (hp : p ≠ .SJF) {s : Sched} (h : tsEmptyAll s) :
    tsEmptyAll (tick p s) := by
  have hbump : tsEmptyAll ({ s with time := s.time + 1 } : Sched) := fun x => h x
  cases p with
  | SJF => exact absurd rfl hp
  | FCFS =>
      exact ts_execStep (some fcfsCfg) (fun c hc => by injection hc with hc; rw [← hc]; rfl)
        (ts_updateWaitingTimes (ts_tryDispatch fcfsCfg rfl (ts_checkArrivals hbump)))
  | PRIORITY =>
      exact ts_execStep (some priCfg) (fun c hc => by injection hc with hc; rw [← hc]; rfl)
        (ts_updateWaitingTimes (ts_tryDispatch priCfg rfl (ts_checkArrivals hbump)))
  | RANDOM =>
      exact ts_execStep (some randCfg) (fun c hc => by injection hc with hc; rw [← hc]; rfl)
        (ts_updateWaitingTimes (ts_tryDispatch randCfg rfl (ts_checkArrivals hbump)))
  | RR =>
      exact ts_rrExecPhase
        (ts_updateWaitingTimes (ts_tryDispatch rrCfg rfl (ts_checkArrivals hbump)))
  | SRTF =>
      refine ts_execStep none (fun c hc => by cases hc)
        (ts_updateWaitingTimes (ts_tryDispatch srtfCfg rfl ?_))
      have h1 := ts_checkArrivals hbump
      split
      · exact ts_preemptCurrent h1
      · exact h1
  | PRIORITY_P =>
      refine ts_execStep none (fun c hc => by cases hc)
        (ts_updateWaitingTimes (ts_tryDispatch ppCfg rfl ?_))
      have h1 := ts_checkArrivals hbump
      split
      · exact ts_preemptCurrent h1
      · exact h1

/-- Every reachable state of the six timestamp-free policies has empty
timestamp logs. -/
theorem runTicks_ts (p : Policy) (hp : p ≠ .SJF) (cfgs : List PConfig) (q : Nat)
    (o : List Nat) : ∀ k, tsEmptyAll (runTicks p cfgs q o k) := by
  intro k
  induction k with
  | zero => intro x; rfl
  | succ j ih => exact tick_ts_preserved p hp ih

/-- Every flat list of empty lists flattens to the empty list. -/
theorem flatten_eq_nil_of_all {L : List (List Nat)} (h : ∀ x ∈ L, x = []) :
    L.flatten = [] := by
  induction L with
  | nil => rfl
  | cons a t ih =>
      rw [List.flatten_cons, h a (List.mem_cons_self a t), List.nil_append]
      exact ih (fun x hx => h x (List.mem_cons_of_mem a hx))

/-- With empty timestamp logs everywhere, the context-switch statistic
is zero. -/
theorem contextSwitches_zero {s : Sched} (h : tsEmptyAll s) :
    calculateContextSwitches (getAllProcesses s) = 0 := by
  unfold calculateContextSwitches
  have hall : ∀ x ∈ (getAllProcesses s).map (fun p => p.runningTimestamps), x = [] := by
    intro x hx
    rcases List.mem_map.mp hx with ⟨pr, hpr, hx2⟩
    unfold getAllProcesses at hpr
    have : ∃ pid, pr = s.store pid := by
      rcases List.mem_append.mp hpr with h1 | h4
      · rcases List.mem_append.mp h1 with h2 | h3
        · rcases List.mem_append.mp h2 with h5 | h6
          · rcases List.mem_map.mp h5 with ⟨pid, _, he⟩
            exact ⟨pid, he.symm⟩
          · rcases List.mem_map.mp h6 with ⟨pid, _, he⟩
            exact ⟨pid, he.symm⟩
        · rcases List.mem_map.mp h3 with ⟨pid, _, he⟩
          exact ⟨pid, he.symm⟩
      · rcases List.mem_map.mp h4 with ⟨pid, _, he⟩
        exact ⟨pid, he.symm⟩
    rcases this with ⟨pid, he⟩
    rw [← hx2, he]
    exact h pid
  rw [flatten_eq_nil_of_all hall]
  rfl

end SchedSim

namespace SchedSim

open PState

/-- A guarded dispatch never changes the completed list. -/
theorem tryDispatch_completed (cfg : DispatchCfg) (s : Sched) :
    (tryDispatch cfg s).completed = s.completed := by
  unfold tryDispatch
  split
  · rcases hp : cfg.pick s.queue s.store s.oracle with _ | ⟨pid, q', o'⟩
    · rw [applyDispatch_eq_none hp]
    · rw [applyDispatch_eq_some hp]
      split <;> rfl
  · rfl

/-- The wait-accrual loop never changes the completed list. -/
theorem updateWaitingTimes_completed (s : Sched) :
    (updateWaitingTimes s).completed = s.completed := by
  unfold updateWaitingTimes
  have hgen : ∀ (l : List Nat) (s : Sched), (l.foldl waitStep s).completed = s.completed := by
    intro l
    induction l with
    | nil => intro s; rfl
    | cons b t ih =>
        intro s
        simp only [List.foldl_cons]
        exact ih (waitStep s b)
  exact hgen s.queue s

/-- The Round Robin quantum-expiry handling never changes the completed
list. -/
theorem rrExpiry_completed (pid : Nat) (s : Sched) :
    (rrExpiry pid s).completed = s.completed := by
  unfold rrExpiry
  split
  · rw [tryDispatch_completed]
    rfl
  · rfl

/-- When the completion handler with a same-tick redispatch leaves the
slot empty, the ready queue must have been empty. -/
theorem execFinish_no_idle (cfg : DispatchCfg) (hok : PickOk cfg.pick) (pid : Nat) {t : Sched}
    (hs : (execFinish (some cfg) pid t).slot = none) :
    (execFinish (some cfg) pid t).queue = [] := by
  unfold execFinish at hs ⊢
  set t2 : Sched := { t.setP pid ((t.store pid).complete t.time).1 with
    completed := t.completed ++ [pid], slot := none } with ht2
  show (tryDispatch cfg t2).queue = []
  have hs2 : (tryDispatch cfg t2).slot = none := hs
  unfold tryDispatch at hs2 ⊢
  have hslot2 : t2.slot = none := rfl
  rw [if_pos hslot2] at hs2 ⊢
  rcases hp : cfg.pick t2.queue t2.store t2.oracle with _ | ⟨pid', q'', o''⟩
  · rw [applyDispatch_eq_none hp]
    exact (hok t2.queue t2.store t2.oracle).1 hp
  · rw [applyDispatch_eq_some hp] at hs2
    exfalso
    revert hs2
    split <;> simp

/-- For the simple tick shape, an empty slot after a completion in the
same tick forces an empty ready queue. -/
theorem execStep_no_idle (cfg : DispatchCfg) (hok : PickOk cfg.pick) {s : Sched}
    (hs : (execStep (some cfg) s).slot = none)
    (hg : s.completed.length < (execStep (some cfg) s).completed.length) :
    (execStep (some cfg) s).queue = [] := by
  unfold execStep at hs hg ⊢
  rcases hslot : s.slot with _ | pid
  · rw [hslot] at hg
    have hg2 : s.completed.length < s.completed.length := hg
    exact absurd hg2 (lt_irrefl _)
  · rw [hslot] at hs hg
    have hs2 : (if ((s.store pid).execute 1).2 then execFinish (some cfg) pid (execAdvance pid s)
        else execAdvance pid s).slot = none := hs
    have hg2 : s.completed.length < (if ((s.store pid).execute 1).2 then
        execFinish (some cfg) pid (execAdvance pid s)
        else execAdvance pid s).completed.length := hg
    show (if ((s.store pid).execute 1).2 then execFinish (some cfg) pid (execAdvance pid s)
      else execAdvance pid s).queue = []
    by_cases hdone : ((s.store pid).execute 1).2 = true
    · rw [if_pos hdone] at hs2 ⊢
      exact execFinish_no_idle cfg hok pid hs2
    · rw [if_neg hdone] at hg2 ⊢
      have hg3 : s.completed.length < s.completed.length := hg2
      exact absurd hg3 (lt_irrefl _)

/-- For the Round Robin execute phase, an empty slot after a completion
in the same tick forces an empty ready queue. -/
theorem rrExecPhase_no_idle {s : Sched}
    (hs : (rrExecPhase s).slot = none)
    (hg : s.completed.length < (rrExecPhase s).completed.length) :
    (rrExecPhase s).queue = [] := by
  rcases hslot : s.slot with _ | pid
  · rw [rrExecPhase_none hslot] at hg
    exact absurd hg (lt_irrefl _)
  · rw [rrExecPhase_some hslot] at hs hg ⊢
    split at hs
    · rename_i hdone
      rw [if_pos hdone] at hg ⊢
      exact execFinish_no_idle rrCfg pickHead_ok pid hs
    · rename_i hdone
      rw [if_neg hdone] at hg ⊢
      split at hs
      · rename_i hexp
        rw [if_pos hexp] at hg
        rw [rrExpiry_completed] at hg
        exact absurd hg (lt_irrefl _)
      · rename_i hexp
        rw [if_neg hexp] at hg
        exact absurd hg (lt_irrefl _)

end SchedSim

namespace SchedSim

open PState

/-- The arrival loop only ever appends to the ready queue. -/
theorem ca_queue_mono :
    ∀ (l : List Nat) (s : Sched) (a : Nat), a ∈ s.queue → a ∈ (l.foldl arrivalStep s).queue := by
  intro l
  induction l with
  | nil => intro s a h; exact h
  | cons b t ih =>
      intro s a h
      simp only [List.foldl_cons]
      refine ih (arrivalStep s b) a ?_
      unfold arrivalStep
      split
      · show a ∈ s.queue ++ [b]
        exact List.mem_append.mpr (Or.inl h)
      · exact h

/-- A NEW process of the order list whose arrival time has come is on
the ready queue after the arrival loop. -/
theorem ca_mem_queue_of :
    ∀ (l : List Nat) (s : Sched) (a : Nat), a ∈ l → (s.store a).state = NEW →
      (s.store a).arrivalTime ≤ s.time → a ∈ (l.foldl arrivalStep s).queue := by
  intro l
  induction l with
  | nil => intro s a h; simp at h
  | cons b t ih =>
      intro s a hmem hnew harr
      simp only [List.foldl_cons]
      by_cases hab : b = a
      · rw [hab]
        have hcond : (s.store a).state = NEW ∧ (s.store a).arrivalTime ≤ s.time := ⟨hnew, harr⟩
        refine ca_queue_mono t (arrivalStep s a) a ?_
        unfold arrivalStep
        rw [if_pos hcond]
        show a ∈ s.queue ++ [a]
        exact List.mem_append.mpr (Or.inr (by simp))
      · have hmem2 : a ∈ t := by
          rcases List.mem_cons.mp hmem with h1 | h2
          · exact absurd h1.symm hab
          · exact h2
        have hstore : (arrivalStep s b).store a = s.store a := by
          unfold arrivalStep
          split
          · exact setP_store_ne s _ (fun he => hab he.symm)
          · rfl
        have htime : (arrivalStep s b).time = s.time := (arrivalStep_frame s b).2.2.1
        exact ih (arrivalStep s b) a hmem2 (by rw [hstore]; exact hnew)
          (by rw [hstore, htime]; exact harr)

/-- The wait-accrual loop changes nothing but waiting times: all other
scheduler fields and all other process fields are preserved. -/
theorem uw_frame (s : Sched) :
    (updateWaitingTimes s).queue = s.queue ∧ (updateWaitingTimes s).slot = s.slot ∧
    (updateWaitingTimes s).completed = s.completed ∧ (updateWaitingTimes s).time = s.time ∧
    (updateWaitingTimes s).oracle = s.oracle ∧
    (∀ a, ((updateWaitingTimes s).store a).state = (s.store a).state ∧
      ((updateWaitingTimes s).store a).remainingTime = (s.store a).remainingTime ∧
      ((updateWaitingTimes s).store a).priority = (s.store a).priority ∧
      ((updateWaitingTimes s).store a).arrivalTime = (s.store a).arrivalTime) := by
  unfold updateWaitingTimes
  have hgen : ∀ (l : List Nat) (s : Sched),
      (l.foldl waitStep s).queue = s.queue ∧ (l.foldl waitStep s).slot = s.slot ∧
      (l.foldl waitStep s).completed = s.completed ∧ (l.foldl waitStep s).time = s.time ∧
      (l.foldl waitStep s).oracle = s.oracle ∧
      (∀ a, ((l.foldl waitStep s).store a).state = (s.store a).state ∧
        ((l.foldl waitStep s).store a).remainingTime = (s.store a).remainingTime ∧
        ((l.foldl waitStep s).store a).priority = (s.store a).priority ∧
        ((l.foldl waitStep s).store a).arrivalTime = (s.store a).arrivalTime) := by
    intro l
    induction l with
    | nil => intro s; exact ⟨rfl, rfl, rfl, rfl, rfl, fun a => ⟨rfl, rfl, rfl, rfl⟩⟩
    | cons b t ih =>
        intro s
        simp only [List.foldl_cons]
        have hstep : ∀ a, ((waitStep s b).store a).state = (s.store a).state ∧
            ((waitStep s b).store a).remainingTime = (s.store a).remainingTime ∧
            ((waitStep s b).store a).priority = (s.store a).priority ∧
            ((waitStep s b).store a).arrivalTime = (s.store a).arrivalTime := by
          intro a
          unfold waitStep
          by_cases hab : a = b
          · rw [hab]
            simp
          · rw [setP_store_ne s _ hab]
            exact ⟨rfl, rfl, rfl, rfl⟩
        have h2 := ih (waitStep s b)
        refine ⟨h2.1, h2.2.1, h2.2.2.1, h2.2.2.2.1, h2.2.2.2.2.1, fun a => ?_⟩
        have h3 := h2.2.2.2.2.2 a
        have h4 := hstep a
        exact ⟨h3.1.trans h4.1, h3.2.1.trans h4.2.1, h3.2.2.1.trans h4.2.2.1,
          h3.2.2.2.trans h4.2.2.2⟩
  exact hgen s.queue s

/-- The minimum found by the Priority-Preemptive reduce really is a
minimum for the priority value. -/
theorem ppBest_le (st : Nat → Proc) (q : List Nat) {m : Nat} (hm : ppBest st q = some m) :
    ∀ x ∈ q, (st m).priority ≤ (st x).priority := by
  have hfold : ∀ (l : List Nat) (b : Nat),
      (st (l.foldl (fun best cur =>
        if (st cur).priority < (st best).priority then cur
        else if (st cur).priority = (st best).priority ∧
                (st cur).arrivalTime < (st best).arrivalTime then cur
        else best) b)).priority ≤ (st b).priority ∧
      ∀ x ∈ l, (st (l.foldl (fun best cur =>
        if (st cur).priority < (st best).priority then cur
        else if (st cur).priority = (st best).priority ∧
                (st cur).arrivalTime < (st best).arrivalTime then cur
        else best) b)).priority ≤ (st x).priority := by
    intro l
    induction l with
    | nil => intro b; exact ⟨le_refl _, fun x hx => absurd hx (List.not_mem_nil x)⟩
    | cons c t ih =>
        intro b
        simp only [List.foldl_cons]
        have hstep : (st (if (st c).priority < (st b).priority then c
            else if (st c).priority = (st b).priority ∧
                    (st c).arrivalTime < (st b).arrivalTime then c
            else b)).priority ≤ (st b).priority ∧
            (st (if (st c).priority < (st b).priority then c
            else if (st c).priority = (st b).priority ∧
                    (st c).arrivalTime < (st b).arrivalTime then c
            else b)).priority ≤ (st c).priority := by
          split
          · rename_i h1
            exact ⟨le_of_lt h1, le_refl _⟩
          · split
            · rename_i h1 h2
              rw [h2.1]
              exact ⟨le_refl _, le_refl _⟩
            · rename_i h1 h2
              refine ⟨le_refl _, ?_⟩
              rcases lt_or_le (st b).priority (st c).priority with h3 | h3
              · exact le_of_lt h3
              · rcases lt_or_eq_of_le h3 with h4 | h4
                · exact absurd h4 h1
                · rw [h4]
        have h2 := ih (if (st c).priority < (st b).priority then c
            else if (st c).priority = (st b).priority ∧
                    (st c).arrivalTime < (st b).arrivalTime then c
            else b)
        refine ⟨h2.1.trans hstep.1, fun x hx => ?_⟩
        rcases List.mem_cons.mp hx with hxc | hxt
        · rw [hxc]
          exact h2.1.trans hstep.2
        · exact h2.2 x hxt
  rcases q with _ | ⟨q0, rest⟩
  · simp [ppBest] at hm
  · simp only [ppBest, Option.some.injEq] at hm
    intro x hx
    rw [← hm]
    exact (hfold (q0 :: rest) q0).2 x hx

/-- The minimum found by the SRTF reduce really is a minimum for the
remaining time. -/
theorem srtfBest_le (st : Nat → Proc) (q : List Nat) {m : Nat} (hm : srtfBest st q = some m) :
    ∀ x ∈ q, (st m).remainingTime ≤ (st x).remainingTime := by
  have hfold : ∀ (l : List Nat) (b : Nat),
      (st (l.foldl (fun best cur =>
        if (st cur).remainingTime < (st best).remainingTime then cur
        else if (st cur).remainingTime = (st best).remainingTime ∧
                (st cur).arrivalTime < (st best).arrivalTime then cur
        else best) b)).remainingTime ≤ (st b).remainingTime ∧
      ∀ x ∈ l, (st (l.foldl (fun best cur =>
        if (st cur).remainingTime < (st best).remainingTime then cur
        else if (st cur).remainingTime = (st best).remainingTime ∧
                (st cur).arrivalTime < (st best).arrivalTime then cur
        else best) b)).remainingTime ≤ (st x).remainingTime := by
    intro l
    induction l with
    | nil => intro b; exact ⟨le_refl _, fun x hx => absurd hx (List.not_mem_nil x)⟩
    | cons c t ih =>
        intro b
        simp only [List.foldl_cons]
        have hstep : (st (if (st c).remainingTime < (st b).remainingTime then c
            else if (st c).remainingTime = (st b).remainingTime ∧
                    (st c).arrivalTime < (st b).arrivalTime then c
            else b)).remainingTime ≤ (st b).remainingTime ∧
            (st (if (st c).remainingTime < (st b).remainingTime then c
            else if (st c).remainingTime = (st b).remainingTime ∧
                    (st c).arrivalTime < (st b).arrivalTime then c
            else b)).remainingTime ≤ (st c).remainingTime := by
          split
          · rename_i h1
            exact ⟨le_of_lt h1, le_refl _⟩
          · split
            · rename_i h1 h2
              rw [h2.1]
              exact ⟨le_refl _, le_refl _⟩
            · rename_i h1 h2
              refine ⟨le_refl _, ?_⟩
              omega
        have h2 := ih (if (st c).remainingTime < (st b).remainingTime then c
            else if (st c).remainingTime = (st b).remainingTime ∧
                    (st c).arrivalTime < (st b).arrivalTime then c
            else b)
        refine ⟨h2.1.trans hstep.1, fun x hx => ?_⟩
        rcases List.mem_cons.mp hx with hxc | hxt
        · rw [hxc]
          exact h2.1.trans hstep.2
        · exact h2.2 x hxt
  rcases q with _ | ⟨q0, rest⟩
  · simp [srtfBest] at hm
  · simp only [srtfBest, Option.some.injEq] at hm
    intro x hx
    rw [← hm]
    exact (hfold (q0 :: rest) q0).2 x hx

/-- Unfolding the preemption move with a running process. -/
theorem preemptCurrent_eq_some {s : Sched} {pid : Nat} (h : s.slot = some pid) :
    preemptCurrent s =
      { s.setP pid ((s.store pid).updateState READY none) with
        queue := s.queue ++ [pid], slot := none } := by
  unfold preemptCurrent
  rw [h]
  rfl

/-- The execute phase without redispatch touches no process but the
running one. -/
theorem execStep_store_other {s : Sched} {c a : Nat} (hslot : s.slot = some c) (hac : a ≠ c) :
    (execStep none s).store a = s.store a := by
  unfold execStep
  rw [hslot]
  show (if ((s.store c).execute 1).2 then execFinish none c (execAdvance c s)
      else execAdvance c s).store a = s.store a
  have hadv : (execAdvance c s).store a = s.store a := by
    unfold execAdvance
    show (s.setP c ((s.store c).execute 1).1).store a = s.store a
    exact setP_store_ne s _ hac
  split
  · show ({ (execAdvance c s).setP c (((execAdvance c s).store c).complete
        (execAdvance c s).time).1 with
      completed := (execAdvance c s).completed ++ [c], slot := none } : Sched).store a
        = s.store a
    have : ((execAdvance c s).setP c (((execAdvance c s).store c).complete
        (execAdvance c s).time).1).store a = (execAdvance c s).store a :=
      setP_store_ne _ _ hac
    rw [show ({ (execAdvance c s).setP c (((execAdvance c s).store c).complete
        (execAdvance c s).time).1 with
      completed := (execAdvance c s).completed ++ [c], slot := none } : Sched).store a
        = ((execAdvance c s).setP c (((execAdvance c s).store c).complete
        (execAdvance c s).time).1).store a from rfl, this, hadv]
  · exact hadv

end SchedSim

namespace SchedSim

open PState

/-- Dispatching through a sorted selection from a non-empty queue picks
some pid whose key is minimal, and touches no other process. -/
theorem tryDispatch_sort_facts (key : (Nat → Proc) → Nat → Int × Int) (cfg : DispatchCfg)
    (hcfg : cfg = ⟨pickSort key, false, false⟩) (s : Sched) (hslot : s.slot = none)
    {x : Nat} (hx : x ∈ s.queue) :
    ∃ d, (tryDispatch cfg s).slot = some d ∧
      lexLe (key s.store d) (key s.store x) = true ∧
      (∀ a, a ≠ d → (tryDispatch cfg s).store a = s.store a) := by
  subst hcfg
  rcases hsort : insSort (fun a b => lexLe (key s.store a) (key s.store b)) s.queue
    with _ | ⟨d, rest⟩
  · exfalso
    have : x ∈ insSort (fun a b => lexLe (key s.store a) (key s.store b)) s.queue :=
      ((insSort_perm _ s.queue).mem_iff).mpr hx
    rw [hsort] at this
    simp at this
  · have hp : pickSort key s.queue s.store s.oracle = some (d, rest, s.oracle) := by
      unfold pickSort
      rw [hsort]
    have heq : tryDispatch (⟨pickSort key, false, false⟩ : DispatchCfg) s
        = applyDispatch (⟨pickSort key, false, false⟩ : DispatchCfg) s := by
      unfold tryDispatch
      rw [if_pos hslot]
    refine ⟨d, ?_, ?_, ?_⟩
    · rw [heq, applyDispatch_eq_some hp]
      rfl
    · exact insSort_head_le _ (keyLe_total key s.store) (keyLe_trans key s.store) hsort x hx
    · intro a ha
      rw [heq, applyDispatch_eq_some hp]
      show (({ s with queue := rest, oracle := s.oracle, slot := some d } : Sched).setP d
        ((s.store d).updateState RUNNING
          (if (⟨pickSort key, false, false⟩ : DispatchCfg).withTime then some s.time
            else none))).store a = s.store a
      exact setP_store_ne _ _ ha

/-- C5 support, Priority-Preemptive half: a NEW process due to arrive
this tick with a strictly lower priority value than the running process
flips the running process to READY within the tick, without advancing
it. -/
theorem pp_preempt_same_tick (s : Sched) (r pd : Nat)
    (hslot : s.slot = some r)
    (hrun : (s.store r).state = RUNNING)
    (hord : pd ∈ s.order)
    (hnew : (s.store pd).state = NEW)
    (harr : (s.store pd).arrivalTime ≤ s.time + 1)
    (hpri : (s.store pd).priority < (s.store r).priority) :
    ((ppTick s).store r).state = READY ∧
    ((ppTick s).store r).remainingTime = (s.store r).remainingTime := by
  have hr2 : (checkArrivals { s with time := s.time + 1 }).store r = s.store r := by
    unfold checkArrivals
    exact ca_fold_store_not_new _ _ r (by rw [hrun]; simp)
  have hslot2 : (checkArrivals { s with time := s.time + 1 }).slot = some r := by
    unfold checkArrivals
    rw [(ca_fold_frame _ _).1]
    exact hslot
  have hpd2 : pd ∈ (checkArrivals { s with time := s.time + 1 }).queue := by
    unfold checkArrivals
    exact ca_mem_queue_of _ _ pd hord hnew harr
  have hpd2pri : ((checkArrivals { s with time := s.time + 1 }).store pd).priority
      = (s.store pd).priority := by
    unfold checkArrivals
    exact (ca_fold_store_fields _ _ pd).2.2.2.1
  have hpdner : pd ≠ r := by
    intro he
    rw [he, hrun] at hnew
    exact absurd hnew (by simp)
  have hcond : hasHigherPriorityProcess (checkArrivals { s with time := s.time + 1 }) = true := by
    unfold hasHigherPriorityProcess
    rw [hslot2]
    rcases hbest : ppBest (checkArrivals { s with time := s.time + 1 }).store
        (checkArrivals { s with time := s.time + 1 }).queue with _ | m
    · exfalso
      rcases hq : (checkArrivals { s with time := s.time + 1 }).queue with _ | ⟨q0, qt⟩
      · rw [hq] at hpd2; simp at hpd2
      · rw [hq] at hbest; simp [ppBest] at hbest
    · have hle := ppBest_le _ _ hbest pd hpd2
      rw [hpd2pri] at hle
      have : ((checkArrivals { s with time := s.time + 1 }).store m).priority
          < ((checkArrivals { s with time := s.time + 1 }).store r).priority := by
        rw [hr2]
        exact lt_of_le_of_lt hle hpri
      exact decide_eq_true this
  have hE1 : ppTick s = execStep none (updateWaitingTimes (tryDispatch ppCfg
      (preemptCurrent (checkArrivals { s with time := s.time + 1 })))) := by
    show execStep none (updateWaitingTimes (tryDispatch ppCfg
      (if hasHigherPriorityProcess (checkArrivals { s with time := s.time + 1 })
        then preemptCurrent (checkArrivals { s with time := s.time + 1 })
        else checkArrivals { s with time := s.time + 1 }))) = _
    rw [if_pos hcond]
  set s2 : Sched := checkArrivals { s with time := s.time + 1 } with hs2def
  set s3 : Sched := preemptCurrent s2 with hs3def
  have hs3eq : s3 = { s2.setP r ((s2.store r).updateState READY none) with
      queue := s2.queue ++ [r], slot := none } := by
    rw [hs3def]
    exact preemptCurrent_eq_some hslot2
  have hslot3 : s3.slot = none := by rw [hs3eq]
  have hr3 : s3.store r = (s2.store r).updateState READY none := by
    rw [hs3eq]
    simp
  have hpd3 : pd ∈ s3.queue := by
    rw [hs3eq]
    show pd ∈ s2.queue ++ [r]
    exact List.mem_append.mpr (Or.inl hpd2)
  have hpd3store : s3.store pd = s2.store pd := by
    rw [hs3eq]
    show (s2.setP r ((s2.store r).updateState READY none)).store pd = s2.store pd
    exact setP_store_ne s2 _ hpdner
  obtain ⟨d, hslot4, hlex, hstore4⟩ :=
    tryDispatch_sort_facts keyPri ppCfg rfl s3 hslot3 hpd3
  have hdlep : (s3.store d).priority ≤ (s3.store pd).priority := by
    simp only [lexLe, keyPri, decide_eq_true_eq] at hlex
    rcases hlex with h1 | h2
    · exact le_of_lt h1
    · exact le_of_eq h2.1
  have hdltr : (s3.store d).priority < (s3.store r).priority := by
    rw [hr3, updateState_priority, hr2]
    rw [hpd3store, hpd2pri] at hdlep
    exact lt_of_le_of_lt hdlep hpri
  have hrd : r ≠ d := by
    intro he
    rw [← he] at hdltr
    exact lt_irrefl _ hdltr
  have hr4 : (tryDispatch ppCfg s3).store r = s3.store r := hstore4 r hrd
  have hslot5 : (updateWaitingTimes (tryDispatch ppCfg s3)).slot = some d :=
    (uw_frame _).2.1.trans hslot4
  have h5 := (uw_frame (tryDispatch ppCfg s3)).2.2.2.2.2 r
  have hE2 : (execStep none (updateWaitingTimes (tryDispatch ppCfg s3))).store r
      = (updateWaitingTimes (tryDispatch ppCfg s3)).store r :=
    execStep_store_other hslot5 hrd
  rw [hE1, hE2]
  constructor
  · rw [h5.1, hr4, hr3]
    simp
  · rw [h5.2.1, hr4, hr3, updateState_rem, hr2]

/-- C5 support, SRTF half: a NEW process due to arrive this tick with
strictly smaller remaining time than the running process flips the
running process to READY within the tick, without advancing it. -/
theorem srtf_preempt_same_tick (s : Sched) (r pd : Nat)
    (hslot : s.slot = some r)
    (hrun : (s.store r).state = RUNNING)
    (hord : pd ∈ s.order)
    (hnew : (s.store pd).state = NEW)
    (harr : (s.store pd).arrivalTime ≤ s.time + 1)
    (hrem : (s.store pd).remainingTime < (s.store r).remainingTime) :
    ((srtfTick s).store r).state = READY ∧
    ((srtfTick s).store r).remainingTime = (s.store r).remainingTime := by
  have hr2 : (checkArrivals { s with time := s.time + 1 }).store r = s.store r := by
    unfold checkArrivals
    exact ca_fold_store_not_new _ _ r (by rw [hrun]; simp)
  have hslot2 : (checkArrivals { s with time := s.time + 1 }).slot = some r := by
    unfold checkArrivals
    rw [(ca_fold_frame _ _).1]
    exact hslot
  have hpd2 : pd ∈ (checkArrivals { s with time := s.time + 1 }).queue := by
    unfold checkArrivals
    exact ca_mem_queue_of _ _ pd hord hnew harr
  have hpd2rem : ((checkArrivals { s with time := s.time + 1 }).store pd).remainingTime
      = (s.store pd).remainingTime := by
    unfold checkArrivals
    exact (ca_fold_store_fields _ _ pd).1
  have hpdner : pd ≠ r := by
    intro he
    rw [he, hrun] at hnew
    exact absurd hnew (by simp)
  have hcond : hasShorterRemainingTimeProcess (checkArrivals { s with time := s.time + 1 })
      = true := by
    unfold hasShorterRemainingTimeProcess
    rw [hslot2]
    rcases hbest : srtfBest (checkArrivals { s with time := s.time + 1 }).store
        (checkArrivals { s with time := s.time + 1 }).queue with _ | m
    · exfalso
      rcases hq : (checkArrivals { s with time := s.time + 1 }).queue with _ | ⟨q0, qt⟩
      · rw [hq] at hpd2; simp at hpd2
      · rw [hq] at hbest; simp [srtfBest] at hbest
    · have hle := srtfBest_le _ _ hbest pd hpd2
      rw [hpd2rem] at hle
      have : ((checkArrivals { s with time := s.time + 1 }).store m).remainingTime
          < ((checkArrivals { s with time := s.time + 1 }).store r).remainingTime := by
        rw [hr2]
        exact lt_of_le_of_lt hle hrem
      exact decide_eq_true this
  have hE1 : srtfTick s = execStep none (updateWaitingTimes (tryDispatch srtfCfg
      (preemptCurrent (checkArrivals { s with time := s.time + 1 })))) := by
    show execStep none (updateWaitingTimes (tryDispatch srtfCfg
      (if hasShorterRemainingTimeProcess (checkArrivals { s with time := s.time + 1 })
        then preemptCurrent (checkArrivals { s with time := s.time + 1 })
        else checkArrivals { s with time := s.time + 1 }))) = _
    rw [if_pos hcond]
  set s2 : Sched := checkArrivals { s with time := s.time + 1 } with hs2def
  set s3 : Sched := preemptCurrent s2 with hs3def
  have hs3eq : s3 = { s2.setP r ((s2.store r).updateState READY none) with
      queue := s2.queue ++ [r], slot := none } := by
    rw [hs3def]
    exact preemptCurrent_eq_some hslot2
  have hslot3 : s3.slot = none := by rw [hs3eq]
  have hr3 : s3.store r = (s2.store r).updateState READY none := by
    rw [hs3eq]
    simp
  have hpd3 : pd ∈ s3.queue := by
    rw [hs3eq]
    show pd ∈ s2.queue ++ [r]
    exact List.mem_append.mpr (Or.inl hpd2)
  have hpd3store : s3.store pd = s2.store pd := by
    rw [hs3eq]
    show (s2.setP r ((s2.store r).updateState READY none)).store pd = s2.store pd
    exact setP_store_ne s2 _ hpdner
  obtain ⟨d, hslot4, hlex, hstore4⟩ :=
    tryDispatch_sort_facts keyRem srtfCfg rfl s3 hslot3 hpd3
  have hdlep : (s3.store d).remainingTime ≤ (s3.store pd).remainingTime := by
    simp only [lexLe, keyRem, decide_eq_true_eq] at hlex
    omega
  have hdltr : (s3.store d).remainingTime < (s3.store r).remainingTime := by
    rw [hr3, updateState_rem, hr2]
    rw [hpd3store, hpd2rem] at hdlep
    exact lt_of_le_of_lt hdlep hrem
  have hrd : r ≠ d := by
    intro he
    rw [← he] at hdltr
    exact lt_irrefl _ hdltr
  have hr4 : (tryDispatch srtfCfg s3).store r = s3.store r := hstore4 r hrd
  have hslot5 : (updateWaitingTimes (tryDispatch srtfCfg s3)).slot = some d :=
    (uw_frame _).2.1.trans hslot4
  have h5 := (uw_frame (tryDispatch srtfCfg s3)).2.2.2.2.2 r
  have hE2 : (execStep none (updateWaitingTimes (tryDispatch srtfCfg s3))).store r
      = (updateWaitingTimes (tryDispatch srtfCfg s3)).store r :=
    execStep_store_other hslot5 hrd
  rw [hE1, hE2]
  constructor
  · rw [h5.1, hr4, hr3]
    simp
  · rw [h5.2.1, hr4, hr3, updateState_rem, hr2]

end SchedSim

namespace SchedSim

open PState

set_option maxRecDepth 10000

/-- C1: the spec says that under Round Robin, when the quantum runs out
with an empty READY queue and the process is not complete, the same
process continues with a refreshed quantum and its remainingTime keeps
decreasing until completion.  The code instead sets the process to
READY and never back to RUNNING, so execute becomes a no-op: on the
failing input of one process (arrival 0, burst 3) with quantum 2, after
50 ticks the simulation has not finished, the sole process is stuck in
READY with remainingTime 1, no completion time, and an empty queue. -/
theorem c1_round_robin_empty_queue_stall :
    allDone (runTicks .RR [⟨0, 3, 0⟩] 2 [] 50) = false ∧
    ((runTicks .RR [⟨0, 3, 0⟩] 2 [] 50).store 0).state = READY ∧
    ((runTicks .RR [⟨0, 3, 0⟩] 2 [] 50).store 0).remainingTime = 1 ∧
    ((runTicks .RR [⟨0, 3, 0⟩] 2 [] 50).store 0).completionTime = none ∧
    (runTicks .RR [⟨0, 3, 0⟩] 2 [] 50).queue = [] := by
  decide

/-- C2: for every process set and every one of the seven policies,
whenever tick returns true, every process is TERMINATED with
remainingTime 0 and the sum of the initial burst times equals the total
CPU time consumed across all execute calls of the run. -/
theorem c2_completion_conservation (p : Policy) (cfgs : List PConfig) (q : Nat)
    (o : List Nat) (k : Nat) (hdone : allDone (runTicks p cfgs q o k) = true) :
    (∀ pid < cfgs.length,
      ((runTicks p cfgs q o k).store pid).state = TERMINATED ∧
      ((runTicks p cfgs q o k).store pid).remainingTime = 0) ∧
    (runTicks p cfgs q o k).consumed = sumBursts cfgs := by
  have hInv := runTicks_inv p cfgs q o k
  have hlen : (runTicks p cfgs q o k).completed.length = (runTicks p cfgs q o k).n := by
    unfold allDone at hdone
    simp only [beq_iff_eq] at hdone
    exact hdone
  have hmem := inv_allDone_mem hInv hlen
  refine ⟨?_, inv_allDone_consumed hInv hlen⟩
  intro pid hpid
  have hpid2 : pid < (runTicks p cfgs q o k).n := by
    rw [hInv.1]
    exact hpid
  exact hInv.2.2.2.2.2.2.1 pid (hmem pid hpid2)

/-- Witness for C2: the four-process FCFS run finishes at tick 13 with
its second process TERMINATED and the full 13 units of burst consumed. -/
theorem c2_completion_conservation_witness :
    ((runTicks .FCFS [⟨0, 5, 0⟩, ⟨2, 3, 0⟩, ⟨4, 1, 0⟩, ⟨6, 4, 0⟩] 2 [] 13).store 1).state
      = TERMINATED ∧
    (runTicks .FCFS [⟨0, 5, 0⟩, ⟨2, 3, 0⟩, ⟨4, 1, 0⟩, ⟨6, 4, 0⟩] 2 [] 13).consumed
      = sumBursts [⟨0, 5, 0⟩, ⟨2, 3, 0⟩, ⟨4, 1, 0⟩, ⟨6, 4, 0⟩] :=
  ⟨((c2_completion_conservation .FCFS [⟨0, 5, 0⟩, ⟨2, 3, 0⟩, ⟨4, 1, 0⟩, ⟨6, 4, 0⟩] 2 [] 13
      (by decide)).1 1 (by decide)).1,
    (c2_completion_conservation .FCFS [⟨0, 5, 0⟩, ⟨2, 3, 0⟩, ⟨4, 1, 0⟩, ⟨6, 4, 0⟩] 2 [] 13
      (by decide)).2⟩

/-- Counterexample for C3: the four-process FCFS run does finish with
completion order P1 P2 P3 P4, but the accumulated waiting times are
0, 4, 5 and 4 — not 0, 3, 4 and 3 as the claim states (the processes
accrue waiting both in their arrival tick and in their dispatch tick,
and the repository's own test asserts exactly these values). -/
theorem c3_fcfs_scenario_counterexample :
    allDone (runTicks .FCFS [⟨0, 5, 0⟩, ⟨2, 3, 0⟩, ⟨4, 1, 0⟩, ⟨6, 4, 0⟩] 2 [] 13) = true ∧
    [((runTicks .FCFS [⟨0, 5, 0⟩, ⟨2, 3, 0⟩, ⟨4, 1, 0⟩, ⟨6, 4, 0⟩] 2 [] 13).store 0).waitingTime,
     ((runTicks .FCFS [⟨0, 5, 0⟩, ⟨2, 3, 0⟩, ⟨4, 1, 0⟩, ⟨6, 4, 0⟩] 2 [] 13).store 1).waitingTime,
     ((runTicks .FCFS [⟨0, 5, 0⟩, ⟨2, 3, 0⟩, ⟨4, 1, 0⟩, ⟨6, 4, 0⟩] 2 [] 13).store 2).waitingTime,
     ((runTicks .FCFS [⟨0, 5, 0⟩, ⟨2, 3, 0⟩, ⟨4, 1, 0⟩, ⟨6, 4, 0⟩] 2 [] 13).store 3).waitingTime]
      = [0, 4, 5, 4] ∧
    [((runTicks .FCFS [⟨0, 5, 0⟩, ⟨2, 3, 0⟩, ⟨4, 1, 0⟩, ⟨6, 4, 0⟩] 2 [] 13).store 0).waitingTime,
     ((runTicks .FCFS [⟨0, 5, 0⟩, ⟨2, 3, 0⟩, ⟨4, 1, 0⟩, ⟨6, 4, 0⟩] 2 [] 13).store 1).waitingTime,
     ((runTicks .FCFS [⟨0, 5, 0⟩, ⟨2, 3, 0⟩, ⟨4, 1, 0⟩, ⟨6, 4, 0⟩] 2 [] 13).store 2).waitingTime,
     ((runTicks .FCFS [⟨0, 5, 0⟩, ⟨2, 3, 0⟩, ⟨4, 1, 0⟩, ⟨6, 4, 0⟩] 2 [] 13).store 3).waitingTime]
      ≠ [0, 3, 4, 3] := by
  decide

/-- C3 amended: the FCFS run on P1(0,5) P2(2,3) P3(4,1) P4(6,4)
completes in order P1 P2 P3 P4 with waiting times 0, 4, 5, 4 and
turnaround times 5, 6, 5, 7. -/
theorem c3_fcfs_scenario_amended :
    (runTicks .FCFS [⟨0, 5, 0⟩, ⟨2, 3, 0⟩, ⟨4, 1, 0⟩, ⟨6, 4, 0⟩] 2 [] 13).completed
      = [0, 1, 2, 3] ∧
    [((runTicks .FCFS [⟨0, 5, 0⟩, ⟨2, 3, 0⟩, ⟨4, 1, 0⟩, ⟨6, 4, 0⟩] 2 [] 13).store 0).waitingTime,
     ((runTicks .FCFS [⟨0, 5, 0⟩, ⟨2, 3, 0⟩, ⟨4, 1, 0⟩, ⟨6, 4, 0⟩] 2 [] 13).store 1).waitingTime,
     ((runTicks .FCFS [⟨0, 5, 0⟩, ⟨2, 3, 0⟩, ⟨4, 1, 0⟩, ⟨6, 4, 0⟩] 2 [] 13).store 2).waitingTime,
     ((runTicks .FCFS [⟨0, 5, 0⟩, ⟨2, 3, 0⟩, ⟨4, 1, 0⟩, ⟨6, 4, 0⟩] 2 [] 13).store 3).waitingTime]
      = [0, 4, 5, 4] ∧
    [((runTicks .FCFS [⟨0, 5, 0⟩, ⟨2, 3, 0⟩, ⟨4, 1, 0⟩, ⟨6, 4, 0⟩] 2 [] 13).store 0).turnaroundTime,
     ((runTicks .FCFS [⟨0, 5, 0⟩, ⟨2, 3, 0⟩, ⟨4, 1, 0⟩, ⟨6, 4, 0⟩] 2 [] 13).store 1).turnaroundTime,
     ((runTicks .FCFS [⟨0, 5, 0⟩, ⟨2, 3, 0⟩, ⟨4, 1, 0⟩, ⟨6, 4, 0⟩] 2 [] 13).store 2).turnaroundTime,
     ((runTicks .FCFS [⟨0, 5, 0⟩, ⟨2, 3, 0⟩, ⟨4, 1, 0⟩, ⟨6, 4, 0⟩] 2 [] 13).store 3).turnaroundTime]
      = [5, 6, 5, 7] ∧
    allDone (runTicks .FCFS [⟨0, 5, 0⟩, ⟨2, 3, 0⟩, ⟨4, 1, 0⟩, ⟨6, 4, 0⟩] 2 [] 13) = true := by
  decide

/-- Counterexample for C4: in the first SRTF tick on P1(0,1) and
P2(0,5), P1 completes and is appended to the completed list, yet the
running slot is left empty even though the READY queue still holds P2 —
SRTF does not dispatch a successor within the completion tick. -/
theorem c4_same_tick_redispatch_counterexample :
    (runTicks .SRTF [⟨0, 1, 0⟩, ⟨0, 5, 0⟩] 2 [] 1).completed = [0] ∧
    (runTicks .SRTF [⟨0, 1, 0⟩, ⟨0, 5, 0⟩] 2 [] 1).slot = none ∧
    (runTicks .SRTF [⟨0, 1, 0⟩, ⟨0, 5, 0⟩] 2 [] 1).queue = [1] := by
  decide

/-- C4 amended: for FCFS, SJF, Priority, Random and Round Robin, a tick
that grows the completed list and still ends with an empty running slot
can only do so when the ready queue is empty — the successor is
dispatched within the same tick whenever one is available.  SRTF and
Priority-Preemptive clear the slot on completion and dispatch only at
the start of the next tick. -/
theorem c4_same_tick_redispatch_amended (p : Policy) (hp : p ∈ fiveRedispatchPolicies)
    (s : Sched) (hslot : (tick p s).slot = none)
    (hgrow : s.completed.length < (tick p s).completed.length) :
    (tick p s).queue = [] := by
  have hpre : ∀ cfg : DispatchCfg,
      (updateWaitingTimes (tryDispatch cfg (checkArrivals
        { s with time := s.time + 1 }))).completed = s.completed := by
    intro cfg
    rw [updateWaitingTimes_completed, tryDispatch_completed]
    unfold checkArrivals
    exact (ca_fold_frame _ _).2.1
  simp only [fiveRedispatchPolicies, List.mem_cons, List.not_mem_nil, or_false] at hp
  rcases hp with rfl | rfl | rfl | rfl | rfl
  · have he : tick .FCFS s = execStep (some fcfsCfg) (updateWaitingTimes (tryDispatch fcfsCfg
        (checkArrivals { s with time := s.time + 1 }))) := rfl
    rw [he] at hslot hgrow ⊢
    refine execStep_no_idle fcfsCfg pickHead_ok hslot ?_
    rw [hpre fcfsCfg]
    exact hgrow
  · have he : tick .SJF s = execStep (some sjfCfg) (updateWaitingTimes (tryDispatch sjfCfg
        (checkArrivals { s with time := s.time + 1 }))) := rfl
    rw [he] at hslot hgrow ⊢
    refine execStep_no_idle sjfCfg (pickSort_ok keyRem) hslot ?_
    rw [hpre sjfCfg]
    exact hgrow
  · have he : tick .PRIORITY s = execStep (some priCfg) (updateWaitingTimes (tryDispatch priCfg
        (checkArrivals { s with time := s.time + 1 }))) := rfl
    rw [he] at hslot hgrow ⊢
    refine execStep_no_idle priCfg (pickSort_ok keyPri) hslot ?_
    rw [hpre priCfg]
    exact hgrow
  · have he : tick .RANDOM s = execStep (some randCfg) (updateWaitingTimes (tryDispatch randCfg
        (checkArrivals { s with time := s.time + 1 }))) := rfl
    rw [he] at hslot hgrow ⊢
    refine execStep_no_idle randCfg pickRand_ok hslot ?_
    rw [hpre randCfg]
    exact hgrow
  · have he : tick .RR s = rrExecPhase (updateWaitingTimes (tryDispatch rrCfg
        (checkArrivals { s with time := s.time + 1 }))) := rfl
    rw [he] at hslot hgrow ⊢
    refine rrExecPhase_no_idle hslot ?_
    rw [hpre rrCfg]
    exact hgrow

/-- Witness for C4 amended: the first FCFS tick on a lone one-unit
process completes it with nobody left to dispatch, and indeed the ready
queue is empty. -/
theorem c4_same_tick_redispatch_amended_witness :
    (tick .FCFS (initSched .FCFS [⟨0, 1, 0⟩] 2 [])).queue = [] :=
  c4_same_tick_redispatch_amended .FCFS (by decide) (initSched .FCFS [⟨0, 1, 0⟩] 2 [])
    (by decide) (by decide)

/-- Counterexample for C5: under Round Robin with quantum 2 on P1(0,5)
and P2(1,3), after tick 1 P1 is RUNNING with remainingTime 4; tick 2
preempts P1 back to READY, yet its remainingTime has dropped to 3 in
that same tick — Round Robin advances the running process before
applying its quantum-expiry preemption, so the claim's before-advancing
ordering does not hold for every preemptive policy. -/
theorem c5_preemption_order_counterexample :
    ((runTicks .RR [⟨0, 5, 0⟩, ⟨1, 3, 0⟩] 2 [] 1).store 0).state = RUNNING ∧
    (runTicks .RR [⟨0, 5, 0⟩, ⟨1, 3, 0⟩] 2 [] 1).slot = some 0 ∧
    ((runTicks .RR [⟨0, 5, 0⟩, ⟨1, 3, 0⟩] 2 [] 1).store 0).remainingTime = 4 ∧
    ((runTicks .RR [⟨0, 5, 0⟩, ⟨1, 3, 0⟩] 2 [] 2).store 0).state = READY ∧
    ((runTicks .RR [⟨0, 5, 0⟩, ⟨1, 3, 0⟩] 2 [] 2).store 0).remainingTime = 3 := by
  decide

/-- C5 amended: SRTF and Priority-Preemptive evaluate their preemption
decision after the arrival check and before advancing the running
process: a NEW process due to arrive this tick with a strictly better
key (lower priority value, or smaller remaining time) flips the running
process RUNNING to READY within that tick with its remainingTime
unchanged.  Round Robin, by contrast, advances the running process
before applying quantum-expiry preemption. -/
theorem c5_preemption_order_amended :
    (∀ (s : Sched) (r pd : Nat), s.slot = some r → (s.store r).state = RUNNING →
      pd ∈ s.order → (s.store pd).state = NEW → (s.store pd).arrivalTime ≤ s.time + 1 →
      (s.store pd).priority < (s.store r).priority →
      ((ppTick s).store r).state = READY ∧
      ((ppTick s).store r).remainingTime = (s.store r).remainingTime) ∧
    (∀ (s : Sched) (r pd : Nat), s.slot = some r → (s.store r).state = RUNNING →
      pd ∈ s.order → (s.store pd).state = NEW → (s.store pd).arrivalTime ≤ s.time + 1 →
      (s.store pd).remainingTime < (s.store r).remainingTime →
      ((srtfTick s).store r).state = READY ∧
      ((srtfTick s).store r).remainingTime = (s.store r).remainingTime) :=
  ⟨fun s r pd h1 h2 h3 h4 h5 h6 => pp_preempt_same_tick s r pd h1 h2 h3 h4 h5 h6,
   fun s r pd h1 h2 h3 h4 h5 h6 => srtf_preempt_same_tick s r pd h1 h2 h3 h4 h5 h6⟩

/-- Witness for C5 amended: after one Priority-Preemptive tick on
P1(0,5,priority 5) and P2(2,3,priority 1), P1 runs; P2 arrives in tick
2 with strictly lower priority value, and the tick flips P1 to READY
with its remaining time untouched. -/
theorem c5_preemption_order_amended_witness :
    ((ppTick (runTicks .PRIORITY_P [⟨0, 5, 5⟩, ⟨2, 3, 1⟩] 2 [] 1)).store 0).state = READY ∧
    ((ppTick (runTicks .PRIORITY_P [⟨0, 5, 5⟩, ⟨2, 3, 1⟩] 2 [] 1)).store 0).remainingTime
      = ((runTicks .PRIORITY_P [⟨0, 5, 5⟩, ⟨2, 3, 1⟩] 2 [] 1).store 0).remainingTime :=
  c5_preemption_order_amended.1 (runTicks .PRIORITY_P [⟨0, 5, 5⟩, ⟨2, 3, 1⟩] 2 [] 1) 0 1
    (by decide) (by decide) (by decide) (by decide) (by decide) (by decide)

/-- C6: at every point between tick calls of every policy, each process
sits in exactly one of the four places (not yet arrived with state NEW,
the READY queue, the single running slot, the completed list), the
places hold only in-range pids without duplicates — so their union is
the full process set — and the slot holds at most one process by
construction. -/
theorem c6_place_partition (p : Policy) (cfgs : List PConfig) (q : Nat) (o : List Nat)
    (k : Nat) :
    (∀ pid < (runTicks p cfgs q o k).n, inExactlyOneOf (runTicks p cfgs q o k) pid) ∧
    (placedL (runTicks p cfgs q o k)).Nodup ∧
    (∀ pid ∈ placedL (runTicks p cfgs q o k), pid < (runTicks p cfgs q o k).n) := by
  have hInv := runTicks_inv p cfgs q o k
  exact ⟨inv_exactly_one hInv, hInv.2.2.1, hInv.2.2.2.1⟩

/-- Witness for C6: after one FCFS tick on a lone process, that process
is in exactly one of the four places. -/
theorem c6_place_partition_witness :
    inExactlyOneOf (runTicks .FCFS [⟨0, 2, 0⟩] 2 [] 1) 0 :=
  (c6_place_partition .FCFS [⟨0, 2, 0⟩] 2 [] 1).1 0 (by decide)

/-- Counterexample for C7: with no completed processes the streaming
statistics report 0, but the batch statistics divide by the empty
result list's length with no guard, producing NaN (embedded as none)
rather than 0. -/
theorem c7_average_statistics_counterexample :
    batchAvgWaitingTime [] = none ∧ (none : Option ℚ) ≠ some 0 ∧
    streamAvgWaitingTime [] = 0 := by
  refine ⟨?_, by simp, ?_⟩
  · simp [batchAvgWaitingTime, jsDiv]
  · simp [streamAvgWaitingTime]

/-- C7 amended: all three averages are arithmetic means over the
completed processes in both the batch and the streaming computation;
with no completed processes the streaming statistics report 0 while the
batch statistics divide by zero and produce NaN (embedded as none). -/
theorem c7_average_statistics_amended :
    (streamAvgWaitingTime [] = 0 ∧ streamAvgTurnaroundTime [] = 0 ∧
      streamAvgResponseTime [] = 0) ∧
    (batchAvgWaitingTime [] = none ∧ batchAvgTurnaroundTime [] = none ∧
      batchAvgResponseTime [] = none) ∧
    (∀ l : List Proc, l ≠ [] →
      batchAvgWaitingTime l
        = some (((l.map (fun p => (p.waitingTime : ℚ))).sum) / (l.length : ℚ)) ∧
      batchAvgTurnaroundTime l
        = some (((l.map (fun p => (p.turnaroundTime : ℚ))).sum) / (l.length : ℚ)) ∧
      batchAvgResponseTime l
        = some (((l.map (fun p => ((p.responseTime.getD 0 : Nat) : ℚ))).sum) / (l.length : ℚ)) ∧
      streamAvgWaitingTime l
        = ((l.map (fun p => (p.waitingTime : ℚ))).sum) / (l.length : ℚ) ∧
      streamAvgTurnaroundTime l
        = ((l.map (fun p => (p.turnaroundTime : ℚ))).sum) / (l.length : ℚ) ∧
      streamAvgResponseTime l
        = ((l.map (fun p => ((p.responseTime.getD 0 : Nat) : ℚ))).sum) / (l.length : ℚ)) := by
  refine ⟨⟨?_, ?_, ?_⟩, ⟨?_, ?_, ?_⟩, ?_⟩
  · simp [streamAvgWaitingTime]
  · simp [streamAvgTurnaroundTime]
  · simp [streamAvgResponseTime]
  · simp [batchAvgWaitingTime, jsDiv]
  · simp [batchAvgTurnaroundTime, jsDiv]
  · simp [batchAvgResponseTime, jsDiv]
  · intro l hl
    have hne : ((l.length : ℚ)) ≠ 0 :=
      Nat.cast_ne_zero.mpr (fun h => hl (List.length_eq_zero.mp h))
    have hpos : 0 < l.length := List.length_pos.mpr hl
    refine ⟨?_, ?_, ?_, ?_, ?_, ?_⟩
    · simp [batchAvgWaitingTime, jsDiv, hne]
    · simp [batchAvgTurnaroundTime, jsDiv, hne]
    · simp [batchAvgResponseTime, jsDiv, hne]
    · simp [streamAvgWaitingTime, hpos]
    · simp [streamAvgTurnaroundTime, hpos]
    · simp [streamAvgResponseTime, hpos]

/-- Witness for C7 amended: on a one-element completed list the batch
average waiting time is the mean of that single waiting time. -/
theorem c7_average_statistics_amended_witness :
    batchAvgWaitingTime [Proc.mk0 ⟨0, 1, 0⟩]
      = some ((([Proc.mk0 ⟨0, 1, 0⟩].map (fun p => (p.waitingTime : ℚ))).sum)
          / (([Proc.mk0 ⟨0, 1, 0⟩] : List Proc).length : ℚ)) :=
  (c7_average_statistics_amended.2.2 [Proc.mk0 ⟨0, 1, 0⟩] (by simp)).1

/-- C8: createScheduler invoked with a policy identifier outside the
seven SchedulerType values returns an FCFS scheduler with the warning
logged, raising no error. -/
theorem c8_factory_fallback (t : String) (cfgs : List PConfig) (q : Option Nat)
    (h : t ∉ knownSchedulerTypes) :
    (createScheduler t cfgs q).policy = Policy.FCFS ∧
    (createScheduler t cfgs q).warned = true := by
  simp only [knownSchedulerTypes, List.mem_cons, List.not_mem_nil, or_false, not_or] at h
  obtain ⟨h1, h2, h3, h4, h5, h6, h7⟩ := h
  unfold createScheduler
  rw [if_neg h1, if_neg h2, if_neg h7, if_neg h5, if_neg h6, if_neg h4, if_neg h3]
  exact ⟨rfl, rfl⟩

/-- Witness for C8: the identifier LOTTERY is not a SchedulerType and
falls back to a warned FCFS scheduler. -/
theorem c8_factory_fallback_witness :
    (createScheduler idUnknown [] none).policy = Policy.FCFS ∧
    (createScheduler idUnknown [] none).warned = true :=
  c8_factory_fallback idUnknown [] none (by decide)

/-- Counterexample for C9: complete overwrites completionTime and
turnaroundTime unconditionally, so a second call with a different time
changes both values set by the first call. -/
theorem c9_complete_idempotence_counterexample :
    ((((Proc.mk0 ⟨0, 4, 0⟩).complete 5).1.complete 7).1).completionTime = some 7 ∧
    (((Proc.mk0 ⟨0, 4, 0⟩).complete 5).1).completionTime = some 5 ∧
    ((((Proc.mk0 ⟨0, 4, 0⟩).complete 5).1.complete 7).1).completionTime
      ≠ (((Proc.mk0 ⟨0, 4, 0⟩).complete 5).1).completionTime ∧
    ((((Proc.mk0 ⟨0, 4, 0⟩).complete 5).1.complete 7).1).turnaroundTime
      ≠ (((Proc.mk0 ⟨0, 4, 0⟩).complete 5).1).turnaroundTime := by
  decide

/-- C9 amended: a second complete call overwrites completionTime with
its own time argument and recomputes turnaroundTime from it; only a
second call with the same time leaves the process unchanged. -/
theorem c9_complete_idempotence_amended (p : Proc) (t1 t2 : Nat) :
    (((p.complete t1).1.complete t2).1).completionTime = some t2 ∧
    (((p.complete t1).1.complete t2).1).turnaroundTime
      = (t2 : Int) - (p.arrivalTime : Int) ∧
    (t2 = t1 → ((p.complete t1).1.complete t2).1 = (p.complete t1).1) := by
  refine ⟨?_, ?_, ?_⟩
  · simp
  · simp
  · intro h
    rw [h]
    rfl

/-- Witness for C9 amended: completing the same process twice at time 5
leaves it exactly as after the first call. -/
theorem c9_complete_idempotence_amended_witness :
    (((Proc.mk0 ⟨0, 4, 0⟩).complete 5).1.complete 5).1 = ((Proc.mk0 ⟨0, 4, 0⟩).complete 5).1 :=
  (c9_complete_idempotence_amended (Proc.mk0 ⟨0, 4, 0⟩) 5 5).2.2 rfl

/-- C10: for every run of the six policies whose dispatch sites call
updateState RUNNING without a current-time argument (all but SJF), no
timestamp is ever appended to any runningTimestamps log, and the
reported contextSwitches statistic is 0 regardless of the number of
dispatches or preemptions. -/
theorem c10_context_switches_zero (p : Policy) (hp : p ∈ sixNoTimestampPolicies)
    (cfgs : List PConfig) (q : Nat) (o : List Nat) (k : Nat) :
    (∀ pid, ((runTicks p cfgs q o k).store pid).runningTimestamps = []) ∧
    calculateContextSwitches (getAllProcesses (runTicks p cfgs q o k)) = 0 := by
  have hne : p ≠ .SJF := by
    simp only [sixNoTimestampPolicies, List.mem_cons, List.not_mem_nil, or_false] at hp
    rcases hp with rfl | rfl | rfl | rfl | rfl | rfl <;> simp
  have hts := runTicks_ts p hne cfgs q o k
  exact ⟨hts, contextSwitches_zero hts⟩

/-- Witness for C10: a finished three-tick FCFS run still reports zero
context switches. -/
theorem c10_context_switches_zero_witness :
    calculateContextSwitches (getAllProcesses (runTicks .FCFS [⟨0, 2, 0⟩] 2 [] 3)) = 0 :=
  (c10_context_switches_zero .FCFS (by decide) [⟨0, 2, 0⟩] 2 [] 3).2

end SchedSim
